import Mathlib

/-!
Verification of the review-scheduling and caching core of `word_memorizer`.

The Python code of `src/logic/core.py`, `src/logic/ai.py` and
`src/audio/listen.py` is shallowly embedded below.  Python `float` values
are modelled as exact rationals (`ℚ`), Python `int` as `ℤ`, timestamps as
`ℤ` seconds, and fallible constructors / methods as `Except String`.
`datetime.now()` is made explicit as a `now : ℤ` argument.
-/

namespace WordMemorizer

/-- Python `int(x)` on a float: truncation toward zero. -/
def pyInt (q : ℚ) : ℤ :=
  if q < 0 then -(Int.floor (-q)) else Int.floor q

/-- Python `str.strip()`: drop leading and trailing whitespace. -/
def pyStrip (s : String) : String :=
  ⟨((s.data.dropWhile Char.isWhitespace).reverse.dropWhile
      Char.isWhitespace).reverse⟩

/-- Python `str.lower()` (ASCII case folding). -/
def pyLower (s : String) : String :=
  ⟨s.data.map Char.toLower⟩

/-- Decimal value of a digit list. -/
def pyDigits (ds : List Char) : ℕ :=
  ds.foldl (fun a c => a * 10 + (c.toNat - 48)) 0

/-- A non-empty all-digit run parses to its decimal value. -/
def pyDigitRun (ds : List Char) : Option ℤ :=
  if ds ≠ [] ∧ ds.all Char.isDigit then some (pyDigits ds) else none

/-- Python `int(s)` on a string: optional surrounding whitespace, optional
sign, then a non-empty digit run; anything else raises `ValueError`. -/
def pyToInt (s : String) : Option ℤ :=
  match (pyStrip s).data with
  | '-' :: ds => (pyDigitRun ds).map fun n => -n
  | '+' :: ds => pyDigitRun ds
  | ds => pyDigitRun ds

/-- `ReviewParameters` dataclass from `src/logic/core.py` (defaults as in the
source; the float literals `2.5`, `1.3`, `1.0`, `0.2`, `0.1` are modelled as
the corresponding rationals). -/
structure ReviewParameters where
  initial_easiness : ℚ := 2.5
  min_easiness : ℚ := 1.3
  perfect_score : ℤ := 5
  min_quality : ℤ := 0
  interval_modifier : ℚ := 1
  penalty_factor : ℚ := 0.2
  bonus_factor : ℚ := 0.1
  consecutive_bonus : ℤ := 3
deriving DecidableEq

/-- `WordItem` dataclass from `src/logic/core.py`.  `word_id` (a `uuid4`
string in the source) is modelled as a natural number drawn from a fresh-id
counter; ISO timestamp strings are modelled as integer timestamps, with
`Option` for the two `Optional[str]` fields. -/
structure WordItem where
  word : String
  meaning : String
  pronunciation : String := ""
  difficulty : ℤ := 1
  review_count : ℤ := 0
  correct_count : ℤ := 0
  consecutive_correct : ℤ := 0
  last_review : Option ℤ := none
  next_review : Option ℤ := none
  easiness_factor : ℚ := 2.5
  interval : ℤ := 1
  tags : List String := []
  examples : List String := []
  synonyms : List String := []
  antonyms : List String := []
  word_id : ℕ := 0
  created_at : ℤ := 0
  updated_at : ℤ := 0
deriving DecidableEq

/-- `WordItem.__post_init__`: validation and defaulting run by the dataclass
constructor.  Raising `ValueError` is modelled as `Except.error`. -/
def wordItemPostInit (it : WordItem) (now : ℤ) : Except String WordItem :=
  if it.word = "" ∨ it.meaning = "" then
    .error "word and meaning must be non-empty"
  else if it.difficulty < 1 ∨ 5 < it.difficulty then
    .error "difficulty must be between 1 and 5"
  else
    let it := { it with last_review := some (it.last_review.getD now) }
    let it := { it with next_review := some (it.next_review.getD now) }
    let it :=
      if it.easiness_factor < 1.3 then { it with easiness_factor := 1.3 } else it
    .ok { it with updated_at := now }

/-- Construction of a `WordItem` through the dataclass constructor
(field defaults of the dataclass followed by `__post_init__`), as performed
by `DataManager.load_words_from_csv` / `DataManager.add_custom_word`.
`fresh_id` stands for the generated `uuid4`. -/
def newWordItem (now : ℤ) (fresh_id : ℕ) (word meaning pronunciation : String)
    (difficulty : ℤ) (tags : List String) : Except String WordItem :=
  wordItemPostInit
    { word := word, meaning := meaning, pronunciation := pronunciation,
      difficulty := difficulty, tags := tags, word_id := fresh_id,
      created_at := now, updated_at := now } now

/-- `ReviewScheduler.calculate_next_review` from `src/logic/core.py`
(lines 87-137).  Returns the `(new_interval, new_ef)` pair together with the
item as mutated by the method (its `consecutive_correct` field); the decision
log appended to `session_history` carries no claim-relevant state and is not
modelled. -/
def calculate_next_review (p : ReviewParameters) (item : WordItem)
    (quality : ℤ) : Except String (ℤ × ℚ × WordItem) :=
  if quality < p.min_quality ∨ p.perfect_score < quality then
    .error "quality out of range"
  else
    let q_diff : ℤ := p.perfect_score - quality
    if quality < 3 then
      let new_interval : ℤ := max 1 (pyInt p.interval_modifier)
      let penalty : ℚ := p.penalty_factor * ((3 : ℤ) - quality : ℤ)
      let new_ef : ℚ := max p.min_easiness (item.easiness_factor - penalty)
      let item' := { item with consecutive_correct := 0 }
      let new_interval := pyInt ((new_interval : ℚ) * p.interval_modifier)
      .ok (new_interval, new_ef, item')
    else
      let cc : ℤ := item.consecutive_correct + 1
      let consecutive_bonus : ℚ :=
        if p.consecutive_bonus ≤ cc then 1 + p.bonus_factor else 1
      let new_interval : ℤ :=
        if item.interval ≤ 1 then 6
        else if item.interval = 6 then 14
        else max 1 (pyInt ((item.interval : ℚ) * item.easiness_factor * consecutive_bonus))
      let ef_change : ℚ := 0.1 - (q_diff : ℚ) * (0.08 + (q_diff : ℚ) * 0.02)
      let new_ef : ℚ := max p.min_easiness (item.easiness_factor + ef_change)
      let item' := { item with consecutive_correct := cc }
      let new_interval := pyInt ((new_interval : ℚ) * p.interval_modifier)
      .ok (new_interval, new_ef, item')

/-- Number of seconds in one day, for `timedelta(days=new_interval)`. -/
def secondsPerDay : ℤ := 86400

/-- `ReviewScheduler.update_item_after_review` (lines 139-175), restricted to
its effect on the item (the heap push it performs is modelled separately by
`heappush` below, and the appended review event carries no claim-relevant
state). -/
def update_item_after_review (p : ReviewParameters) (item : WordItem)
    (is_correct : Bool) (quality : Option ℤ) (now : ℤ) :
    Except String WordItem :=
  let derived : ℤ := if is_correct then p.perfect_score else p.min_quality
  let q : ℤ := (quality.getD derived)
  let q : ℤ := if q < p.min_quality ∨ p.perfect_score < q then derived else q
  let item := { item with
    review_count := item.review_count + 1,
    correct_count := item.correct_count + (if is_correct then 1 else 0) }
  (calculate_next_review p item q).map fun r =>
    { r.2.2 with
      interval := r.1,
      easiness_factor := r.2.1,
      last_review := some now,
      next_review := some (now + r.1 * secondsPerDay),
      updated_at := now }

/-- A finite sequence of `update_item_after_review` calls
(`(is_correct, quality, now)` triples) applied to one item. -/
def applyReviews (p : ReviewParameters) (item : WordItem)
    (ops : List (Bool × Option ℤ × ℤ)) : Except String WordItem :=
  match ops with
  | [] => .ok item
  | (b, q, t) :: rest =>
    (update_item_after_review p item b q t).bind fun it' =>
      applyReviews p it' rest

/-! ## The review heap

`ReviewScheduler.review_heap` holds Python tuples `(timestamp, WordItem)`
manipulated through `heapq.heappush` / `heapq.heappop`.  The CPython
`heapq` sift routines are embedded verbatim below, in the `Option` monad:
`none` models the `TypeError` raised when tuple comparison falls through to
comparing two distinct (unorderable) `WordItem`s. -/

/-- A `review_heap` entry: `(next_review_date.timestamp(), item)`. -/
abbrev HeapEntry : Type := ℤ × WordItem

/-- Junk element used only for (always in-bounds) list indexing. -/
def dEntry : HeapEntry := (0, { word := "", meaning := "" })

/-- Python `<` on `(timestamp, WordItem)` tuples: compares timestamps first;
on a timestamp tie it compares the `WordItem`s, which raises `TypeError`
(`none`) unless the two items are equal (dataclass `==` is field-wise). -/
def pyLt (a b : HeapEntry) : Option Bool :=
  if a.1 ≠ b.1 then some (decide (a.1 < b.1))
  else if a.2 = b.2 then some false
  else none

/-- CPython `heapq._siftdown(heap, startpos, pos)` with `newitem = heap[pos]`
passed explicitly (the loop never re-reads slot `pos`). -/
def siftdown (heap : List HeapEntry) (startpos pos : ℕ) (newitem : HeapEntry) :
    Option (List HeapEntry) :=
  if h : startpos < pos then
    let parentpos := (pos - 1) / 2
    let parent := heap.getD parentpos dEntry
    match pyLt newitem parent with
    | none => none
    | some true => siftdown (heap.set pos parent) startpos parentpos newitem
    | some false => some (heap.set pos newitem)
  else
    some (heap.set pos newitem)
termination_by pos
decreasing_by simp_wf; omega

/-- The `while` loop of CPython `heapq._siftup(heap, pos)`: bubble the smaller
child up into the hole at `pos` until a leaf is reached, then place `newitem`
there and sift it back toward `startpos`. -/
def siftupLoop (heap : List HeapEntry) (pos : ℕ) (newitem : HeapEntry)
    (startpos : ℕ) : Option (List HeapEntry) :=
  if h : 2 * pos + 1 < heap.length then
    if hr : 2 * pos + 2 < heap.length then
      match pyLt (heap.getD (2 * pos + 1) dEntry) (heap.getD (2 * pos + 2) dEntry) with
      | none => none
      | some true =>
          siftupLoop (heap.set pos (heap.getD (2 * pos + 1) dEntry))
            (2 * pos + 1) newitem startpos
      | some false =>
          siftupLoop (heap.set pos (heap.getD (2 * pos + 2) dEntry))
            (2 * pos + 2) newitem startpos
    else
      siftupLoop (heap.set pos (heap.getD (2 * pos + 1) dEntry))
        (2 * pos + 1) newitem startpos
  else
    siftdown (heap.set pos newitem) startpos pos newitem
termination_by heap.length - pos
decreasing_by all_goals simp_wf; omega

/-- CPython `heapq._siftup(heap, pos)` (reads `newitem = heap[pos]`,
`startpos = pos`). -/
def siftup (heap : List HeapEntry) (pos : ℕ) : Option (List HeapEntry) :=
  siftupLoop heap pos (heap.getD pos dEntry) pos

/-- CPython `heapq.heappush(heap, item)`. -/
def heappush (heap : List HeapEntry) (item : HeapEntry) :
    Option (List HeapEntry) :=
  siftdown (heap ++ [item]) 0 heap.length item

/-- CPython `heapq.heappop(heap)`: pop the last element; if the heap is still
non-empty, move that element to the root and sift it down.  Popping an empty
heap raises `IndexError`, also mapped to `none` (never reached from
`get_due_items`, whose loop guard checks emptiness first). -/
def heappop (heap : List HeapEntry) : Option (HeapEntry × List HeapEntry) :=
  match heap.getLast? with
  | none => none
  | some lastelt =>
    let rest := heap.dropLast
    if rest.isEmpty then some (lastelt, [])
    else
      let returnitem := rest.getD 0 dEntry
      (siftup (rest.set 0 lastelt) 0).map fun h2 => (returnitem, h2)

/-- The `while` loop of `ReviewScheduler.get_due_items` (lines 177-186):
`while self.review_heap and self.review_heap[0][0] <= current_time and
len(due_items) < limit`. -/
def get_due_items_loop (now : ℤ) (limit : ℕ) (heap : List HeapEntry)
    (due_items : List WordItem) : Option (List WordItem × List HeapEntry) :=
  if h : heap ≠ [] ∧ (heap.getD 0 dEntry).1 ≤ now ∧ due_items.length < limit then
    match heappop heap with
    | none => none
    | some (e, h2) => get_due_items_loop now limit h2 (due_items ++ [e.2])
  else
    some (due_items, heap)
termination_by limit - due_items.length
decreasing_by simp_wf; omega

/-- `ReviewScheduler.get_due_items(limit=50)`: returns the due items popped
from the heap together with the heap they leave behind. -/
def get_due_items (now : ℤ) (limit : ℕ) (heap : List HeapEntry) :
    Option (List WordItem × List HeapEntry) :=
  get_due_items_loop now limit heap []

/-! ## The two content caches

`AIExplanationCache` (`src/logic/ai.py`, sqlite-backed) and `AudioCache`
(`src/audio/listen.py`, sqlite index + files on disk).  The md5 digest used
for keys is modelled as the digested string itself; the sqlite row store is
modelled as a map from key to entry, `CURRENT_TIMESTAMP` as the explicit
`now` argument, and `json.dumps`/`json.loads` of the cached explanation as
an opaque payload string. -/

/-- `AIExplanationCache._generate_cache_key`:
`md5(f"{explanation_type}:{content.lower().strip()}")`. -/
def generate_cache_key (content explanation_type : String) : String :=
  explanation_type ++ ":" ++ pyStrip (pyLower content)

/-- One row of the `explanations` table. -/
structure AIEntry where
  content : String
  typ : String
  created_at : ℤ
  accessed_at : ℤ
  hit_count : ℤ
deriving DecidableEq

/-- `AIExplanationCache` state: TTL (hours) and the `explanations` table. -/
structure AICache where
  ttl_hours : ℤ := 168
  entries : String → Option AIEntry

/-- `AIExplanationCache.get` (lines 269-301): returns the cached payload (if
any) and the cache state after the read. -/
def aiCacheGet (c : AICache) (now : ℤ) (content explanation_type : String) :
    Option String × AICache :=
  let key := generate_cache_key content explanation_type
  match c.entries key with
  | none => (none, c)
  | some e =>
    if e.typ = explanation_type then
      if now - e.created_at < c.ttl_hours * 3600 then
        (some e.content,
          { c with entries := fun k =>
              if k = key then
                some { e with accessed_at := now, hit_count := e.hit_count + 1 }
              else c.entries k })
      else
        (none, { c with entries := fun k => if k = key then none else c.entries k })
    else (none, c)

/-- `AIExplanationCache.set`: `INSERT OR REPLACE` with fresh
`created_at`/`accessed_at` defaults and `hit_count = 0`. -/
def aiCacheSet (c : AICache) (now : ℤ) (content explanation_type value : String) :
    AICache :=
  let key := generate_cache_key content explanation_type
  { c with entries := fun k =>
      if k = key then
        some { content := value, typ := explanation_type,
               created_at := now, accessed_at := now, hit_count := 0 }
      else c.entries k }

/-- `AudioCache._generate_hash`: `md5(f"{language}:{text.strip().lower()}")`. -/
def generate_hash (text language : String) : String :=
  language ++ ":" ++ pyLower (pyStrip text)

/-- One row of the `audio_cache` table. -/
structure AudioEntry where
  text_content : String
  language : String
  file_path : String
  created_at : ℤ
  accessed_at : ℤ
  access_count : ℤ
  file_size : ℤ
deriving DecidableEq

/-- `AudioCache` state: the cache directory, the sqlite index, and the set of
payload files present on disk (keyed by full path). -/
structure AudioCache where
  cache_dir : String := "data"
  entries : String → Option AudioEntry
  files : String → Bool

/-- `AudioCache.get_audio_path` (lines 165-195): returns the payload path (if
the index entry exists and its file is present) and the state after the read;
a dangling index entry is deleted (self-healing) and treated as a miss. -/
def get_audio_path (c : AudioCache) (now : ℤ) (text language : String) :
    Option String × AudioCache :=
  let text_hash := generate_hash text language
  match c.entries text_hash with
  | none => (none, c)
  | some e =>
    if e.language = language then
      let full_path := c.cache_dir ++ "/" ++ e.file_path
      if c.files full_path then
        (some full_path,
          { c with entries := fun k =>
              if k = text_hash then
                some { e with accessed_at := now, access_count := e.access_count + 1 }
              else c.entries k })
      else
        (none,
          { c with entries := fun k => if k = text_hash then none else c.entries k })
    else (none, c)

/-- `AudioCache.cache_audio`: writes the payload file and upserts the index
row (fresh timestamps, `access_count = 0`); returns the file path. -/
def cache_audio (c : AudioCache) (now : ℤ) (text : String) (audio_size : ℤ)
    (language : String) : String × AudioCache :=
  let text_hash := generate_hash text language
  let relative_path := "audio/" ++ text_hash ++ ".mp3"
  let full_path := c.cache_dir ++ "/" ++ relative_path
  (full_path,
    { c with
      files := fun p => if p = full_path then true else c.files p,
      entries := fun k =>
        if k = text_hash then
          some { text_content := text, language := language,
                 file_path := relative_path, created_at := now,
                 accessed_at := now, access_count := 0,
                 file_size := audio_size }
        else c.entries k })

/-! ## The data manager

`DataManager` from `src/logic/core.py`: the two dictionaries `words` (keyed
by word) and `word_id_index` (keyed by id) are modelled as insertion-ordered
association lists, exactly like Python dicts; `uuid4` generation is modelled
by a fresh-id counter threaded through the state. -/

/-- Lookup in an insertion-ordered dictionary. -/
def dictGet {α β : Type} [DecidableEq α] (l : List (α × β)) (k : α) :
    Option β :=
  (l.find? fun kv => kv.1 = k).map fun kv => kv.2

/-- Python dict assignment `d[k] = v`: replace in place if the key exists,
otherwise append. -/
def dictSet {α β : Type} [DecidableEq α] : List (α × β) → α → β → List (α × β)
  | [], k, v => [(k, v)]
  | kv :: t, k, v => if kv.1 = k then (k, v) :: t else kv :: dictSet t k v

/-- An import-history line: `(filename, source, new_words, updated_words,
total_words)`. -/
abbrev ImportEvent : Type := String × String × ℕ × ℕ × ℕ

/-- `DataManager` state (the claim-relevant fields). -/
structure DMState where
  words : List (String × WordItem) := []
  word_id_index : List (ℕ × WordItem) := []
  next_id : ℕ := 0
  import_history : List ImportEvent := []
deriving DecidableEq

/-- One CSV record as yielded by `csv.DictReader`: a mapping with possibly
missing fields (`none` models `field not in row`). -/
structure CsvRow where
  word : Option String := none
  meaning : Option String := none
  pronunciation : Option String := none
  difficulty : Option String := none
  tags : Option String := none
  examples : Option String := none
  synonyms : Option String := none
  antonyms : Option String := none
deriving DecidableEq

/-- `DataManager._validate_word_data` (lines 245-251): both required fields
present and non-empty after `strip()`. -/
def validate_word_data (row : CsvRow) : Bool :=
  (match row.word with | none => false | some s => pyStrip s ≠ "") &&
  (match row.meaning with | none => false | some s => pyStrip s ≠ "")

/-- Python `int(s)` on a CSV cell: parses a (sign-prefixed) decimal integer
after stripping surrounding whitespace; anything else raises `ValueError`. -/
def pyIntParse (s : String) : Except String ℤ :=
  match pyToInt s with
  | some n => .ok n
  | none => .error "invalid literal for int"

/-- `[x.strip() for x in s.split(sep) if x.strip()]`. -/
def splitStripFilter (s sep : String) : List String :=
  ((s.splitOn sep).map pyStrip).filter fun x => x ≠ ""

/-- The `for row in reader` loop of `DataManager.load_words_from_csv`
(lines 266-310).  The whole loop runs inside one `try`: an exception raised
by a row (e.g. `int()` on a non-numeric `difficulty`, or `WordItem`
validation) aborts the remaining rows; `Sum.inr` carries the partially
mutated state at that point.  `Sum.inl` is normal completion with
`(state, count, new_words, updated_words)`. -/
def processRow (st : DMState) (row : CsvRow) (now : ℤ) :
    (DMState × Bool) ⊕ DMState :=
  let word := pyStrip (row.word.getD "")
  let meaning := pyStrip (row.meaning.getD "")
  match dictGet st.words word with
  | some existing =>
    match (match row.difficulty with
           | none => Except.ok existing.difficulty
           | some s => pyIntParse s) with
    | .error _ => .inr st
    | .ok d =>
      let it := { existing with
        meaning := meaning,
        pronunciation := row.pronunciation.getD existing.pronunciation,
        difficulty := d,
        tags := match row.tags with
                | some s => s.splitOn ","
                | none => existing.tags,
        updated_at := now }
      .inl ({ st with
        words := dictSet st.words word it,
        word_id_index := dictSet st.word_id_index it.word_id it }, false)
  | none =>
    match (match row.difficulty with
           | none => Except.ok (1 : ℤ)
           | some s => pyIntParse s) with
    | .error _ => .inr st
    | .ok d =>
      match newWordItem now st.next_id word meaning
          (row.pronunciation.getD "") d
          (match row.tags with | some s => s.splitOn "," | none => []) with
      | .error _ => .inr st
      | .ok it0 =>
        let it := { it0 with
          examples := match row.examples with
                      | some s => splitStripFilter s ";"
                      | none => it0.examples,
          synonyms := match row.synonyms with
                      | some s => splitStripFilter s ","
                      | none => it0.synonyms,
          antonyms := match row.antonyms with
                      | some s => splitStripFilter s ","
                      | none => it0.antonyms }
        .inl ({ st with
          words := dictSet st.words word it,
          word_id_index := dictSet st.word_id_index it.word_id it,
          next_id := st.next_id + 1 }, true)

/-- See the comment above `processRow`, which carries the loop body for one
valid row; the `Bool` flag says whether a new item was created (`true`) or an
existing one merged (`false`). -/
def loadRows (st : DMState) (rows : List CsvRow)
    (count new_words updated_words : ℕ) (now : ℤ) :
    (DMState × ℕ × ℕ × ℕ) ⊕ DMState :=
  match rows with
  | [] => .inl (st, count, new_words, updated_words)
  | row :: rest =>
    if validate_word_data row = false then
      loadRows st rest count new_words updated_words now
    else
      match processRow st row now with
      | .inl (st', true) =>
        loadRows st' rest (count + 1) (new_words + 1) updated_words now
      | .inl (st', false) =>
        loadRows st' rest count new_words (updated_words + 1) now
      | .inr stq => .inr stq

/-- `DataManager.load_words_from_csv` (lines 253-318) after the file has been
read into `rows`: on normal completion, append the import event and return
the count of newly created words; on an exception, return `0` (the partial
mutations persist, no import event is recorded). -/
def load_words_from_csv (st : DMState) (rows : List CsvRow)
    (filename source : String) (now : ℤ) : DMState × ℕ :=
  match loadRows st rows 0 0 0 now with
  | .inl (st', c, nw, uw) =>
    ({ st' with import_history :=
        st'.import_history ++ [(filename, source, nw, uw, st'.words.length)] }, c)
  | .inr stPartial => (stPartial, 0)

/-- `DataManager.get_word_by_id` (lines 518-520). -/
def get_word_by_id (st : DMState) (word_id : ℕ) : Option WordItem :=
  dictGet st.word_id_index word_id

/-- `DataManager.add_custom_word` (lines 533-540) with the keyword arguments
forwarded to the `WordItem` constructor made explicit; an exception raised by
the constructor propagates. -/
def add_custom_word_k (st : DMState) (now : ℤ) (word meaning pronunciation :
    String) (difficulty : ℤ) (tags : List String) :
    Except String (Bool × DMState) :=
  if (dictGet st.words word).isSome then .ok (false, st)
  else
    (newWordItem now st.next_id word meaning pronunciation difficulty tags).map
      fun it =>
        (true, { st with
          words := dictSet st.words word it,
          word_id_index := dictSet st.word_id_index it.word_id it,
          next_id := st.next_id + 1 })

/-- `DataManager.add_custom_word(word, meaning)` with no keyword arguments
(the `WordItem` field defaults apply). -/
def add_custom_word (st : DMState) (now : ℤ) (word meaning : String) :
    Except String (Bool × DMState) :=
  add_custom_word_k st now word meaning "" 1 []

/-! ## Heap well-formedness predicates and concrete fixtures -/

/-- The binary min-heap shape invariant maintained by `heapq` (ordering on
the due-timestamp component): every non-root slot is `≥` its parent. -/
def IsHeap (l : List HeapEntry) : Prop :=
  ∀ i, i < l.length → 0 < i → (l.getD ((i - 1) / 2) dEntry).1 ≤ (l.getD i dEntry).1

instance (l : List HeapEntry) : Decidable (IsHeap l) := by
  unfold IsHeap; infer_instance

/-- Any two entries of the list either carry distinct due timestamps or are
the same entry — exactly the condition under which every tuple comparison
`pyLt` performed on them is defined (no `TypeError`). -/
def DistinctTs (l : List HeapEntry) : Prop :=
  l.Pairwise fun a b => a.1 ≠ b.1 ∨ a = b

instance (l : List HeapEntry) : Decidable (DistinctTs l) := by
  unfold DistinctTs; infer_instance

/-- `x` is comparable against every element of `l`. -/
def TsCompat (x : HeapEntry) (l : List HeapEntry) : Prop :=
  ∀ e ∈ l, x.1 ≠ e.1 ∨ x = e

instance (x : HeapEntry) (l : List HeapEntry) : Decidable (TsCompat x l) := by
  unfold TsCompat; infer_instance

/-- Heap shape holding at every slot except possibly `pos` (as a child). -/
def HeapExcept (l : List HeapEntry) (pos : ℕ) : Prop :=
  ∀ i, i < l.length → 0 < i → i ≠ pos →
    (l.getD ((i - 1) / 2) dEntry).1 ≤ (l.getD i dEntry).1

/-- `x` is below every child of slot `pos`. -/
def BelowBound (l : List HeapEntry) (pos : ℕ) (x : HeapEntry) : Prop :=
  ∀ c, c < l.length → 0 < c → (c - 1) / 2 = pos → x.1 ≤ (l.getD c dEntry).1

/-- The parent of slot `pos` is below every child of `pos`. -/
def ParentBound (l : List HeapEntry) (pos : ℕ) : Prop :=
  0 < pos → ∀ c, c < l.length → 0 < c → (c - 1) / 2 = pos →
    (l.getD ((pos - 1) / 2) dEntry).1 ≤ (l.getD c dEntry).1

/-- Heap shape ignoring every relation touching slot `pos`. -/
def HoleHeap (l : List HeapEntry) (pos : ℕ) : Prop :=
  ∀ i, i < l.length → 0 < i → i ≠ pos → (i - 1) / 2 ≠ pos →
    (l.getD ((i - 1) / 2) dEntry).1 ≤ (l.getD i dEntry).1

/-- Default review parameters (`ReviewParameters()`). -/
def defaultParams : ReviewParameters := {}

/-- A fresh `WordItem` as built with defaults: interval 1, ease 2.5. -/
def itemAB : WordItem := { word := "a", meaning := "b" }

/-- Three pairwise-distinct fresh items for heap scenarios. -/
def wordA : WordItem := { word := "A", meaning := "m" }

/-- See `wordA`. -/
def wordB : WordItem := { word := "B", meaning := "m" }

/-- See `wordA`. -/
def wordC : WordItem := { word := "C", meaning := "m" }

/-- A CSV row that passes `_validate_word_data` but carries a non-numeric
`difficulty` cell. -/
def rowBadDifficulty : CsvRow :=
  { word := some "a", meaning := some "b", difficulty := some "xx" }

/-- A well-formed CSV row. -/
def rowGood : CsvRow := { word := some "c", meaning := some "d" }

/-- A CSV row failing required-field validation (blank word). -/
def rowInvalid : CsvRow := { word := some " ", meaning := some "d" }

/-- The item created by importing `rowGood` into an empty store at time 0. -/
def itemCD : WordItem :=
  { word := "c", meaning := "d", last_review := some 0, next_review := some 0 }

/-- The store state after importing `rowGood` into an empty store at time 0. -/
def stCD : DMState :=
  { words := [("c", itemCD)], word_id_index := [(0, itemCD)], next_id := 1 }

/-! ## General lemmas -/

theorem pyInt_intCast (n : ℤ) : pyInt ((n : ℚ)) = n := by
  unfold pyInt
  split
  · rw [show -((n : ℚ)) = (((-n : ℤ) : ℚ)) by push_cast; ring, Int.floor_intCast]
    omega
  · exact Int.floor_intCast n

/-! ## C1: success-band interval tiering -/

/-- C1 (amended): for every item and in-range quality ≥ 3,
`calculate_next_review` increments `consecutive_correct` and applies the
bonus multiplier `1 + bonus_factor` exactly once the incremented streak
reaches `consecutive_bonus`; under the default `interval_modifier = 1` the
new interval is tiered: 6 when the current interval is at the fresh value
(`interval ≤ 1`), 14 when it equals 6, and otherwise
`max 1 (trunc (interval * ease * bonus))` — truncation, not rounding.
Moreover a fresh item (interval 1, ease 2.5) yields interval 6 for every
quality 3..5 under default parameters, and interval 6 with ease 2.5 graded 4
yields interval 14 with ease unchanged at 2.5. -/
theorem C1_success_interval_tiers :
    (∀ (p : ReviewParameters) (item : WordItem) (q : ℤ),
      p.min_quality ≤ q → 3 ≤ q → q ≤ p.perfect_score →
      p.interval_modifier = 1 →
      calculate_next_review p item q = .ok
        ((if item.interval ≤ 1 then 6
          else if item.interval = 6 then 14
          else max 1 (pyInt ((item.interval : ℚ) * item.easiness_factor *
            (if p.consecutive_bonus ≤ item.consecutive_correct + 1
             then 1 + p.bonus_factor else 1)))),
         max p.min_easiness (item.easiness_factor +
           (0.1 - ((p.perfect_score - q : ℤ) : ℚ) *
             (0.08 + ((p.perfect_score - q : ℤ) : ℚ) * 0.02))),
         { item with consecutive_correct := item.consecutive_correct + 1 })) ∧
    (∀ q : ℤ, 3 ≤ q → q ≤ 5 →
      (calculate_next_review defaultParams itemAB q).toOption.map Prod.fst =
        some 6) ∧
    ((calculate_next_review defaultParams { itemAB with interval := 6 }
        4).toOption.map (fun r => (r.1, r.2.1)) = some (14, 5/2)) := by
  have key : ∀ (p : ReviewParameters) (item : WordItem) (q : ℤ),
      p.min_quality ≤ q → 3 ≤ q → q ≤ p.perfect_score →
      p.interval_modifier = 1 →
      calculate_next_review p item q = .ok
        ((if item.interval ≤ 1 then 6
          else if item.interval = 6 then 14
          else max 1 (pyInt ((item.interval : ℚ) * item.easiness_factor *
            (if p.consecutive_bonus ≤ item.consecutive_correct + 1
             then 1 + p.bonus_factor else 1)))),
         max p.min_easiness (item.easiness_factor +
           (0.1 - ((p.perfect_score - q : ℤ) : ℚ) *
             (0.08 + ((p.perfect_score - q : ℤ) : ℚ) * 0.02))),
         { item with consecutive_correct := item.consecutive_correct + 1 }) := by
    intro p item q hmin h3 hmax hmod
    simp only [calculate_next_review]
    rw [if_neg (by omega), if_neg (by omega), hmod, mul_one, pyInt_intCast]
  refine ⟨key, ?_, ?_⟩
  · intro q h3 h5
    rw [key defaultParams itemAB q (by exact h3.trans' (by norm_num [defaultParams]))
      h3 h5 rfl]
    simp [itemAB]
    exact ⟨_, _, rfl⟩
  · rw [key defaultParams { itemAB with interval := 6 } 4
      (by norm_num [defaultParams]) (by norm_num)
      (by norm_num [defaultParams]) rfl]
    simp only [Except.toOption, Option.map]
    norm_num [itemAB, defaultParams, max_def]

/-- Witness for `C1_success_interval_tiers` at concrete inputs. -/
theorem C1_success_interval_tiers_witness :
    (defaultParams.min_quality ≤ (4:ℤ) ∧ (3:ℤ) ≤ 4 ∧
     (4:ℤ) ≤ defaultParams.perfect_score ∧ defaultParams.interval_modifier = 1) ∧
    calculate_next_review defaultParams
        { itemAB with interval := 7, consecutive_correct := 2 } 4 = .ok
        ((if ({ itemAB with interval := 7, consecutive_correct := 2 } :
              WordItem).interval ≤ 1 then 6
          else if ({ itemAB with interval := 7, consecutive_correct := 2 } :
              WordItem).interval = 6 then 14
          else max 1 (pyInt
            ((({ itemAB with interval := 7, consecutive_correct := 2 } :
                WordItem).interval : ℚ) *
              ({ itemAB with interval := 7, consecutive_correct := 2 } :
                WordItem).easiness_factor *
            (if defaultParams.consecutive_bonus ≤
                ({ itemAB with interval := 7, consecutive_correct := 2 } :
                  WordItem).consecutive_correct + 1
             then 1 + defaultParams.bonus_factor else 1)))),
         max defaultParams.min_easiness
           (({ itemAB with interval := 7, consecutive_correct := 2 } :
              WordItem).easiness_factor +
            (0.1 - ((defaultParams.perfect_score - 4 : ℤ) : ℚ) *
              (0.08 + ((defaultParams.perfect_score - 4 : ℤ) : ℚ) * 0.02))),
         { { itemAB with interval := 7, consecutive_correct := 2 } with
            consecutive_correct :=
              ({ itemAB with interval := 7, consecutive_correct := 2 } :
                WordItem).consecutive_correct + 1 }) :=
  ⟨⟨by decide, by decide, by decide, rfl⟩,
    C1_success_interval_tiers.1 defaultParams
      { itemAB with interval := 7, consecutive_correct := 2 } 4
      (by decide) (by decide) (by decide) rfl⟩

/-- C1 counterexample: the claimed `round(interval * ease * consecutiveBonus)`
is false — the code truncates with `int(...)`.  At interval 7, ease 2.36,
quality 5 (default parameters, bonus 1) the code yields 16 while
`round(7 * 2.36) = 17`. -/
theorem C1_round_counterexample :
    (calculate_next_review defaultParams
        { itemAB with interval := 7, easiness_factor := 59/25 }
        5).toOption.map Prod.fst = some 16 ∧
    (round ((7 : ℚ) * (59/25) * 1) : ℤ) = 17 := by
  constructor
  · unfold calculate_next_review
    rw [if_neg (by norm_num [defaultParams]), if_neg (by norm_num)]
    norm_num [defaultParams, itemAB, pyInt, max_def, Except.toOption]
  · norm_num [round_eq]

theorem except_map_ok {ε α β : Type} (f : α → β) (e : Except ε α) (y : β)
    (h : e.map f = .ok y) : ∃ r, e = .ok r ∧ y = f r := by
  cases e with
  | error _ => simp [Except.map] at h
  | ok r => exact ⟨r, rfl, by simpa [Except.map] using h.symm⟩

theorem except_bind_ok {ε α β : Type} (g : α → Except ε β) (e : Except ε α)
    (y : β) (h : e.bind g = .ok y) : ∃ r, e = .ok r ∧ g r = .ok y := by
  cases e with
  | error _ => simp [Except.bind] at h
  | ok r => exact ⟨r, rfl, by simpa [Except.bind] using h⟩

/-- Shared evaluation of the failure band of `calculate_next_review`. -/
theorem calc_failure_eval (p : ReviewParameters) (item : WordItem) (q : ℤ)
    (hmin : p.min_quality ≤ q) (hmax : q ≤ p.perfect_score) (h3 : q < 3) :
    calculate_next_review p item q = .ok
      (pyInt (((max 1 (pyInt p.interval_modifier) : ℤ) : ℚ) *
          p.interval_modifier),
       max p.min_easiness
         (item.easiness_factor - p.penalty_factor * (((3 : ℤ) - q : ℤ) : ℚ)),
       { item with consecutive_correct := 0 }) := by
  simp only [calculate_next_review]
  rw [if_neg (by omega), if_pos h3]

/-! ## C2: failure-band behaviour -/

/-- C2 (amended): for every in-range quality < 3, the new ease is
`max(minEasiness, ease - penaltyFactor*(3 - quality))` and
`consecutive_correct` is reset to 0, but the resulting interval is
`trunc(max(1, trunc(intervalModifier)) * intervalModifier)` — the modifier
enters both as the failure base interval and again in the final scaling —
which coincides with the claimed `max(1, intervalModifier)` at the default
`intervalModifier = 1` but not for every value of the parameter. -/
theorem C2_failure_band :
    (∀ (p : ReviewParameters) (item : WordItem) (q : ℤ),
      p.min_quality ≤ q → q ≤ p.perfect_score → q < 3 →
      calculate_next_review p item q = .ok
        (pyInt (((max 1 (pyInt p.interval_modifier) : ℤ) : ℚ) *
            p.interval_modifier),
         max p.min_easiness
           (item.easiness_factor - p.penalty_factor * (((3 : ℤ) - q : ℤ) : ℚ)),
         { item with consecutive_correct := 0 })) ∧
    (∀ (p : ReviewParameters) (item : WordItem) (q : ℤ),
      p.min_quality ≤ q → q ≤ p.perfect_score → q < 3 →
      p.interval_modifier = 1 →
      (calculate_next_review p item q).toOption.map Prod.fst = some 1) := by
  refine ⟨calc_failure_eval, ?_⟩
  intro p item q hmin hmax h3 hmod
  rw [calc_failure_eval p item q hmin hmax h3, hmod]
  have h1 : pyInt (1 : ℚ) = 1 := by
    rw [show ((1 : ℚ)) = (((1 : ℤ) : ℚ)) by norm_num, pyInt_intCast]
  rw [h1]
  norm_num [h1, Except.toOption]

/-- Witness for `C2_failure_band` at concrete inputs. -/
theorem C2_failure_band_witness :
    (defaultParams.min_quality ≤ (1:ℤ) ∧ (1:ℤ) ≤ defaultParams.perfect_score ∧
      (1:ℤ) < 3) ∧
    calculate_next_review defaultParams itemAB 1 = .ok
      (pyInt (((max 1 (pyInt defaultParams.interval_modifier) : ℤ) : ℚ) *
          defaultParams.interval_modifier),
       max defaultParams.min_easiness
         (itemAB.easiness_factor -
           defaultParams.penalty_factor * (((3 : ℤ) - 1 : ℤ) : ℚ)),
       { itemAB with consecutive_correct := 0 }) :=
  ⟨⟨by decide, by decide, by decide⟩,
    C2_failure_band.1 defaultParams itemAB 1 (by decide) (by decide) (by decide)⟩

/-- C2 counterexample: with `interval_modifier = 2` and quality 0 the code
yields interval 4, not the claimed `max(1, intervalModifier) = 2`. -/
theorem C2_modifier_counterexample :
    (calculate_next_review { interval_modifier := 2 } itemAB 0).toOption.map
      Prod.fst = some 4 ∧
    max (1 : ℚ) ({ interval_modifier := 2 : ReviewParameters }).interval_modifier
      = 2 ∧ ((4 : ℚ)) ≠ 2 := by
  refine ⟨?_, by norm_num, by norm_num⟩
  simp only [calculate_next_review]
  rw [if_neg (by norm_num), if_pos (by norm_num)]
  norm_num [pyInt, Except.toOption]

/-! ## C3: the easiness floor -/

theorem max_sub_collapse (a y d : ℚ) (hd : 0 ≤ d) :
    max a (max a y - d) = max a (y - d) := by
  rcases le_total y a with h | h
  · rw [max_eq_left h, max_eq_left (by linarith), max_eq_left (by linarith)]
  · rw [max_eq_right h]

/-- Shared lemma: every `ok` result of `calculate_next_review` has its new
ease at or above `min_easiness`. -/
theorem calc_ef_floor (p : ReviewParameters) (item : WordItem) (q : ℤ)
    (r : ℤ × ℚ × WordItem) (h : calculate_next_review p item q = .ok r) :
    p.min_easiness ≤ r.2.1 := by
  simp only [calculate_next_review] at h
  split_ifs at h <;>
    first
      | exact Except.noConfusion h
      | (injection h with h'; subst h'; exact le_sup_left)

/-- Shared lemma: every `ok` result of `update_item_after_review` has ease at
or above `min_easiness`. -/
theorem update_ef_floor (p : ReviewParameters) (item : WordItem) (b : Bool)
    (qo : Option ℤ) (t : ℤ) (it' : WordItem)
    (h : update_item_after_review p item b qo t = .ok it') :
    p.min_easiness ≤ it'.easiness_factor := by
  simp only [update_item_after_review] at h
  obtain ⟨r, hr, rfl⟩ := except_map_ok _ _ _ h
  exact calc_ef_floor _ _ _ _ hr

/-- Shared evaluation of a worst-case default-parameter review
(`is_correct = False`, quality derived as 0). -/
theorem worst_update_eval (item : WordItem) :
    ∃ it', update_item_after_review defaultParams item false none 0 = .ok it' ∧
      it'.easiness_factor = max 1.3 (item.easiness_factor - 3/5) := by
  simp only [update_item_after_review, Option.getD, Bool.false_eq_true,
    if_false, ite_self]
  rw [calc_failure_eval defaultParams _ defaultParams.min_quality (le_refl _)
    (by decide) (by decide)]
  simp only [Except.map]
  exact ⟨_, rfl, by norm_num [defaultParams]⟩

/-- C3: `easiness_factor` never drops below `min_easiness`: construction
clamps the ease up to 1.3, a single scheduling step always returns an ease
`≥ min_easiness`, the invariant is preserved along every finite sequence of
reviews, and under default parameters `n` worst-case grades drive the ease to
exactly `max 1.3 (ease - 0.6*n)` — converging to the 1.3 floor, never below
it. -/
theorem C3_easiness_floor :
    (∀ (it : WordItem) (now : ℤ) (it' : WordItem),
      wordItemPostInit it now = .ok it' →
      it'.easiness_factor = max 1.3 it.easiness_factor) ∧
    (∀ (p : ReviewParameters) (item : WordItem) (q : ℤ) (r : ℤ × ℚ × WordItem),
      calculate_next_review p item q = .ok r → p.min_easiness ≤ r.2.1) ∧
    (∀ (p : ReviewParameters) (item : WordItem) (b : Bool) (qo : Option ℤ)
      (t : ℤ) (it' : WordItem),
      update_item_after_review p item b qo t = .ok it' →
      p.min_easiness ≤ it'.easiness_factor) ∧
    (∀ (p : ReviewParameters) (item : WordItem)
      (ops : List (Bool × Option ℤ × ℤ)) (it' : WordItem),
      p.min_easiness ≤ item.easiness_factor →
      applyReviews p item ops = .ok it' →
      p.min_easiness ≤ it'.easiness_factor) ∧
    (∀ (n : ℕ) (item : WordItem), 1.3 ≤ item.easiness_factor →
      ∃ it', applyReviews defaultParams item
          (List.replicate n (false, none, 0)) = .ok it' ∧
        it'.easiness_factor = max 1.3 (item.easiness_factor - (3/5) * n)) := by
  refine ⟨?_, calc_ef_floor, update_ef_floor, ?_, ?_⟩
  · intro it now it' h
    simp only [wordItemPostInit] at h
    split_ifs at h <;>
      first
        | exact Except.noConfusion h
        | (injection h with h'; subst h';
           first
             | exact (max_eq_left (le_of_lt (by assumption))).symm
             | exact (max_eq_right (le_of_not_lt (by assumption))).symm)
  · intro p item ops
    induction ops generalizing item with
    | nil =>
      intro it' hef h
      simp only [applyReviews] at h
      injection h with h'
      subst h'
      exact hef
    | cons op rest ih =>
      intro it' hef h
      obtain ⟨b, qo, t⟩ := op
      simp only [applyReviews] at h
      obtain ⟨r, hr, hrest⟩ := except_bind_ok _ _ _ h
      exact ih r it' (update_ef_floor _ _ _ _ _ _ hr) hrest
  · intro n
    induction n with
    | zero =>
      intro item hef
      refine ⟨item, rfl, ?_⟩
      rw [max_eq_right (by linarith)]
      push_cast
      ring
    | succ n ih =>
      intro item hef
      obtain ⟨it1, h1, hef1⟩ := worst_update_eval item
      obtain ⟨it', h', hef'⟩ := ih it1 (hef1 ▸ le_max_left _ _)
      refine ⟨it', ?_, ?_⟩
      · rw [List.replicate_succ]
        simp only [applyReviews, h1, Except.bind]
        exact h'
      · rw [hef', hef1, max_sub_collapse _ _ _ (by positivity)]
        push_cast
        ring_nf

/-- Witness for `C3_easiness_floor`: two worst-case reviews drive a fresh
item ease from 2.5 down to `max 1.3 (2.5 - 1.2) = 1.3`. -/
theorem C3_easiness_floor_witness :
    ((1.3 : ℚ) ≤ itemAB.easiness_factor) ∧
    (∃ it', applyReviews defaultParams itemAB
        (List.replicate 2 (false, none, 0)) = .ok it' ∧
      it'.easiness_factor = max 1.3 (itemAB.easiness_factor - (3/5) * (2 : ℕ))) :=
  ⟨by norm_num [itemAB],
    C3_easiness_floor.2.2.2.2 2 itemAB (by norm_num [itemAB])⟩

/-! ## C4: the final interval scaling has no floor -/

/-- C4: the spec claims the final interval is scaled by `intervalModifier`
and then floored at 1, keeping `interval ≥ 1`.  The code floors only the
pre-scaling value: with `interval_modifier = 0.5` a failed review writes
back interval `int(max(1, int(0.5)) * 0.5) = 0`, violating the claimed
`interval ≥ 1` invariant. -/
theorem C4_no_final_floor :
    (update_item_after_review { interval_modifier := 1/2 } itemAB false none
        0).toOption.map (fun it => it.interval) = some 0 := by
  simp only [update_item_after_review, Option.getD, Bool.false_eq_true,
    if_false, ite_self]
  rw [calc_failure_eval _ _ _ (le_refl _) (by decide) (by decide)]
  simp only [Except.map, Except.toOption, Option.map]
  norm_num [pyInt]

/-! ## C5: grade validation and clamping -/

theorem except_isOk_map {ε α β : Type} (f : α → β) (e : Except ε α) :
    (e.map f).isOk = e.isOk := by
  cases e <;> rfl

/-- Shared lemma: `calculate_next_review` succeeds on any in-range grade. -/
theorem calc_isOk (p : ReviewParameters) (item : WordItem) (q : ℤ)
    (h : p.min_quality ≤ q ∧ q ≤ p.perfect_score) :
    (calculate_next_review p item q).isOk = true := by
  simp only [calculate_next_review]
  rw [if_neg (by omega)]
  split_ifs <;> rfl

/-- C5: `calculate_next_review` fails exactly when the grade is out of
`[min_quality, perfect_score]`; `update_item_after_review` never fails
(whenever the parameter range is non-empty): an omitted quality is derived
from `is_correct`, and an out-of-range explicit quality is clamped to that
same derived default rather than rejected. -/
theorem C5_grade_contract :
    (∀ (p : ReviewParameters) (item : WordItem) (q : ℤ),
      (calculate_next_review p item q).isOk = true ↔
        (p.min_quality ≤ q ∧ q ≤ p.perfect_score)) ∧
    (∀ p : ReviewParameters, p.min_quality ≤ p.perfect_score →
      ∀ (item : WordItem) (b : Bool) (qo : Option ℤ) (now : ℤ),
      (update_item_after_review p item b qo now).isOk = true) ∧
    (∀ (p : ReviewParameters) (item : WordItem) (b : Bool) (q now : ℤ),
      (q < p.min_quality ∨ p.perfect_score < q) →
      update_item_after_review p item b (some q) now =
        update_item_after_review p item b none now) := by
  refine ⟨?_, ?_, ?_⟩
  · intro p item q
    constructor
    · intro h
      by_contra hc
      simp only [calculate_next_review] at h
      rw [if_pos (by omega)] at h
      cases h
    · exact fun h => calc_isOk p item q h
  · intro p hp item b qo now
    simp only [update_item_after_review]
    rw [except_isOk_map]
    apply calc_isOk
    cases qo with
    | none => simp only [Option.getD]; split_ifs <;> omega
    | some q => simp only [Option.getD]; split_ifs <;> omega
  · intro p item b q now h
    simp only [update_item_after_review, Option.getD]
    rw [if_pos h]
    simp only [ite_self]

/-- Witness for `C5_grade_contract`: under default parameters the range is
non-empty and a review submission always succeeds. -/
theorem C5_grade_contract_witness :
    defaultParams.min_quality ≤ defaultParams.perfect_score ∧
    (update_item_after_review defaultParams itemAB true none 0).isOk = true :=
  ⟨by decide,
    C5_grade_contract.2.1 defaultParams (by decide) itemAB true none 0⟩

/-! ## C7: cache `get` behaviour -/

/-- C7: in both cache instantiations `get` is absent for a key never
written; the AI-explanation cache serves a stored value while
`now - createdAt` is within the TTL and, once the TTL has elapsed, deletes
the entry on that read and reports absent; the audio cache reports absent
and self-heals (deleting the stale index row) when the referenced payload
file is missing; and every hit bumps `accessed_at` and the hit counter. -/
theorem C7_cache_get_behaviour :
    (∀ (c : AICache) (now : ℤ) (content typ : String),
      c.entries (generate_cache_key content typ) = none →
      aiCacheGet c now content typ = (none, c)) ∧
    (∀ (c : AICache) (t1 t2 : ℤ) (content typ v : String),
      t2 - t1 < c.ttl_hours * 3600 →
      (aiCacheGet (aiCacheSet c t1 content typ v) t2 content typ).1 = some v ∧
      ((aiCacheGet (aiCacheSet c t1 content typ v) t2 content typ).2).entries
          (generate_cache_key content typ) =
        some { content := v, typ := typ, created_at := t1, accessed_at := t2,
               hit_count := 1 }) ∧
    (∀ (c : AICache) (t1 t2 : ℤ) (content typ v : String),
      c.ttl_hours * 3600 ≤ t2 - t1 →
      (aiCacheGet (aiCacheSet c t1 content typ v) t2 content typ).1 = none ∧
      ((aiCacheGet (aiCacheSet c t1 content typ v) t2 content typ).2).entries
          (generate_cache_key content typ) = none) ∧
    (∀ (c : AICache) (now : ℤ) (content typ : String) (e : AIEntry),
      c.entries (generate_cache_key content typ) = some e → e.typ = typ →
      now - e.created_at < c.ttl_hours * 3600 →
      (aiCacheGet c now content typ).1 = some e.content ∧
      ((aiCacheGet c now content typ).2).entries
          (generate_cache_key content typ) =
        some { e with accessed_at := now, hit_count := e.hit_count + 1 }) ∧
    (∀ (c : AudioCache) (now : ℤ) (text lang : String),
      c.entries (generate_hash text lang) = none →
      get_audio_path c now text lang = (none, c)) ∧
    (∀ (c : AudioCache) (now : ℤ) (text lang : String) (e : AudioEntry),
      c.entries (generate_hash text lang) = some e → e.language = lang →
      c.files (c.cache_dir ++ "/" ++ e.file_path) = false →
      (get_audio_path c now text lang).1 = none ∧
      ((get_audio_path c now text lang).2).entries (generate_hash text lang) =
        none) ∧
    (∀ (c : AudioCache) (now : ℤ) (text lang : String) (e : AudioEntry),
      c.entries (generate_hash text lang) = some e → e.language = lang →
      c.files (c.cache_dir ++ "/" ++ e.file_path) = true →
      (get_audio_path c now text lang).1 =
        some (c.cache_dir ++ "/" ++ e.file_path) ∧
      ((get_audio_path c now text lang).2).entries (generate_hash text lang) =
        some { e with accessed_at := now,
                      access_count := e.access_count + 1 }) := by
  refine ⟨?_, ?_, ?_, ?_, ?_, ?_, ?_⟩
  · intro c now content typ h
    simp only [aiCacheGet, h]
  · intro c t1 t2 content typ v h
    simp [aiCacheGet, aiCacheSet, h]
  · intro c t1 t2 content typ v h
    simp [aiCacheGet, aiCacheSet, not_lt.mpr h]
  · intro c now content typ e he htyp httl
    simp [aiCacheGet, he, htyp, httl]
  · intro c now text lang h
    simp only [get_audio_path, h]
  · intro c now text lang e he hlang hmiss
    simp [get_audio_path, he, hlang, hmiss]
  · intro c now text lang e he hlang hhit
    simp [get_audio_path, he, hlang, hhit]

/-- Witness for `C7_cache_get_behaviour`: a put-then-get round trip one hour
later on a 168-hour-TTL cache hits, bumping `accessed_at` and `hit_count`. -/
theorem C7_cache_get_behaviour_witness :
    ((3600 : ℤ) - 0 <
      ({ entries := fun _ => none } : AICache).ttl_hours * 3600) ∧
    (aiCacheGet (aiCacheSet { entries := fun _ => none } 0 "hello" "word" "v")
        3600 "hello" "word").1 = some "v" ∧
    ((aiCacheGet (aiCacheSet { entries := fun _ => none } 0 "hello" "word" "v")
        3600 "hello" "word").2).entries (generate_cache_key "hello" "word") =
      some { content := "v", typ := "word", created_at := 0,
             accessed_at := 3600, hit_count := 1 } :=
  ⟨by norm_num,
    C7_cache_get_behaviour.2.1 { entries := fun _ => none } 0 3600
      "hello" "word" "v" (by norm_num)⟩

/-! ## C8: CSV import -/

/-- Shared lemma: rows failing `_validate_word_data` are skipped and
processing continues — the loop result coincides with the loop over the
valid rows only. -/
theorem loadRows_filter (rows : List CsvRow) :
    ∀ (st : DMState) (c n u : ℕ) (now : ℤ),
    loadRows st rows c n u now =
      loadRows st (rows.filter fun r => validate_word_data r) c n u now := by
  induction rows with
  | nil => intro st c n u now; rfl
  | cons r rest ih =>
    intro st c n u now
    by_cases hv : validate_word_data r
    · rw [List.filter_cons_of_pos (by simpa using hv)]
      simp only [loadRows]
      rw [if_neg (by simp [hv]), if_neg (by simp [hv])]
      cases hp : processRow st r now with
      | inl s => obtain ⟨st', b⟩ := s; cases b <;> simp only [ih]
      | inr stq => rfl
    · rw [List.filter_cons_of_neg (by simpa using hv)]
      simp only [loadRows]
      rw [if_pos (by simpa using hv)]
      exact ih st c n u now

/-- Shared lemma: on normal completion the `new`/`updated` tallies account
exactly for the valid rows. -/
theorem loadRows_counts (rows : List CsvRow) :
    ∀ (st : DMState) (c n u : ℕ) (now : ℤ) (st' : DMState) (c' n' u' : ℕ),
    loadRows st rows c n u now = .inl (st', c', n', u') →
    n' + u' = n + u + (rows.filter fun r => validate_word_data r).length := by
  induction rows with
  | nil =>
    intro st c n u now st' c' n' u' h
    injection h with h'
    simp only [Prod.mk.injEq] at h'
    obtain ⟨-, rfl, rfl, rfl⟩ := h'
    simp
  | cons r rest ih =>
    intro st c n u now st' c' n' u' h
    by_cases hv : validate_word_data r
    · rw [List.filter_cons_of_pos (by simpa using hv)]
      simp only [loadRows] at h
      rw [if_neg (by simp [hv])] at h
      cases hp : processRow st r now with
      | inl s =>
        obtain ⟨st1, b⟩ := s
        rw [hp] at h
        cases b
        · have h1 := ih st1 c n (u + 1) now st' c' n' u' h
          rw [h1]
          simp
          omega
        · have h1 := ih st1 (c + 1) (n + 1) u now st' c' n' u' h
          rw [h1]
          simp
          omega
      | inr stq => rw [hp] at h; cases h
    · rw [List.filter_cons_of_neg (by simpa using hv)]
      simp only [loadRows] at h
      rw [if_pos (by simpa using hv)] at h
      exact ih st c n u now st' c' n' u' h

/-- Shared evaluation: importing the single well-formed row `rowGood` into an
empty store succeeds and creates one new item. -/
theorem loadRows_rowGood :
    loadRows {} [rowGood] 0 0 0 0 = .inl (stCD, 1, 1, 0) := by
  have hpr : processRow {} rowGood 0 = .inl (stCD, true) := by
    have hw : pyStrip (rowGood.word.getD "") = "c" := by decide
    have hm : pyStrip (rowGood.meaning.getD "") = "d" := by decide
    simp only [processRow, hw, hm,
      show ({} : DMState).words = [] from rfl,
      show rowGood.difficulty = none from rfl,
      show rowGood.pronunciation = none from rfl,
      show rowGood.tags = none from rfl,
      show rowGood.examples = none from rfl,
      show rowGood.synonyms = none from rfl,
      show rowGood.antonyms = none from rfl,
      dictGet, List.find?, Option.map, newWordItem, wordItemPostInit]
    rw [if_neg (by decide), if_neg (by decide), if_neg (by norm_num)]
    rfl
  simp only [loadRows]
  rw [if_neg (by decide), hpr]

/-- C8 (amended): `load_words_from_csv` skips records failing the
required-field validation and continues (the loop is equivalent to the loop
over the valid rows only), and on normal completion the new/updated tallies
account exactly for the valid rows; however a row whose optional field is
malformed (e.g. a non-numeric `difficulty`) raises inside the single
loop-level `try` and aborts the processing of the remaining rows, returning
0 with no recorded history event. -/
theorem C8_import_partial_failure :
    (∀ (st : DMState) (rows : List CsvRow) (c n u : ℕ) (now : ℤ),
      loadRows st rows c n u now =
        loadRows st (rows.filter fun r => validate_word_data r) c n u now) ∧
    (∀ (st : DMState) (rows : List CsvRow) (now : ℤ)
       (filename source : String) (st' : DMState) (c' n' u' : ℕ),
      loadRows st rows 0 0 0 now = .inl (st', c', n', u') →
      n' + u' = (rows.filter fun r => validate_word_data r).length ∧
      load_words_from_csv st rows filename source now =
        ({ st' with import_history := st'.import_history ++
            [(filename, source, n', u', st'.words.length)] }, c')) := by
  refine ⟨fun st rows c n u now => loadRows_filter rows st c n u now, ?_⟩
  intro st rows now filename source st' c' n' u' h
  refine ⟨by simpa using loadRows_counts rows st 0 0 0 now st' c' n' u' h, ?_⟩
  simp only [load_words_from_csv, h]

/-- Witness for `C8_import_partial_failure`: a two-row batch whose first row
fails validation imports only the valid row, tallying `new=1, updated=0`. -/
theorem C8_import_partial_failure_witness :
    loadRows {} [rowInvalid, rowGood] 0 0 0 0 = .inl (stCD, 1, 1, 0) ∧
    (1 + 0 =
      ([rowInvalid, rowGood].filter fun r => validate_word_data r).length ∧
     load_words_from_csv {} [rowInvalid, rowGood] "f" "s" 0 =
      ({ stCD with import_history := stCD.import_history ++
          [("f", "s", 1, 0, stCD.words.length)] }, 1)) := by
  have h : loadRows {} [rowInvalid, rowGood] 0 0 0 0 = .inl (stCD, 1, 1, 0) := by
    have hv : validate_word_data rowInvalid = false := by decide
    simp only [loadRows, hv, if_pos]
    exact loadRows_rowGood
  exact ⟨h, C8_import_partial_failure.2 {} [rowInvalid, rowGood] 0 "f" "s"
    stCD 1 1 0 h⟩

/-- C8 counterexample: a row with a non-numeric `difficulty` ahead of a
well-formed row makes the whole batch return 0 — the well-formed row is not
added and no history event is recorded — even though that same well-formed
row is accepted fine on its own. -/
theorem C8_bad_difficulty_aborts :
    load_words_from_csv {} [rowBadDifficulty, rowGood] "f" "s" 0 =
      (({} : DMState), 0) ∧
    (load_words_from_csv {} [rowGood] "f" "s" 0).2 = 1 := by
  constructor
  · decide
  · simp only [load_words_from_csv, loadRows_rowGood]

/-! ## C9 and C10: item construction and manual add -/

/-- Shared evaluation of a successful `WordItem` construction. -/
theorem newWordItem_ok (now : ℤ) (id : ℕ) (w m pr : String) (d : ℤ)
    (tg : List String) (hw : ¬(w = "" ∨ m = "")) (hd : ¬(d < 1 ∨ 5 < d)) :
    newWordItem now id w m pr d tg = .ok
      { word := w, meaning := m, pronunciation := pr, difficulty := d,
        last_review := some now, next_review := some now, tags := tg,
        word_id := id, created_at := now, updated_at := now } := by
  simp only [newWordItem, wordItemPostInit]
  rw [if_neg hw, if_neg hd, if_neg (by norm_num)]
  rfl

theorem dictGet_dictSet_self {α β : Type} [DecidableEq α]
    (l : List (α × β)) (k : α) (v : β) :
    dictGet (dictSet l k v) k = some v := by
  induction l with
  | nil => simp [dictSet, dictGet, List.find?]
  | cons kv t ih =>
    by_cases h : kv.1 = k
    · simp [dictSet, dictGet, List.find?, h]
    · simp only [dictSet, if_neg h]
      simpa [dictGet, List.find?, h] using ih

/-- C9 (amended): `WordItem` construction validates the supplied difficulty
instead of clamping it: any in-range difficulty is stored unchanged, an
out-of-range one raises `ValueError`, and a manual add without an explicit
difficulty stores the default 1. -/
theorem C9_difficulty_validated_not_clamped :
    (∀ (now : ℤ) (id : ℕ) (w m pr : String) (d : ℤ) (tg : List String),
      w ≠ "" → m ≠ "" → 1 ≤ d → d ≤ 5 →
      ∃ it, newWordItem now id w m pr d tg = .ok it ∧ it.difficulty = d) ∧
    (∀ (now : ℤ) (id : ℕ) (w m pr : String) (d : ℤ) (tg : List String),
      w ≠ "" → m ≠ "" → (d < 1 ∨ 5 < d) →
      newWordItem now id w m pr d tg =
        .error "difficulty must be between 1 and 5") ∧
    (∀ (st : DMState) (now : ℤ) (w m : String),
      dictGet st.words w = none → w ≠ "" → m ≠ "" →
      ∃ it st', add_custom_word st now w m = .ok (true, st') ∧
        dictGet st'.words w = some it ∧ it.difficulty = 1) := by
  refine ⟨?_, ?_, ?_⟩
  · intro now id w m pr d tg hw hm hd1 hd5
    exact ⟨_, newWordItem_ok now id w m pr d tg (by tauto) (by omega), rfl⟩
  · intro now id w m pr d tg hw hm hd
    simp only [newWordItem, wordItemPostInit]
    rw [if_neg (by tauto), if_pos (by omega)]
  · intro st now w m hfresh hw hm
    simp only [add_custom_word, add_custom_word_k]
    rw [if_neg (by simp [hfresh]),
      newWordItem_ok now st.next_id w m "" 1 [] (by tauto) (by omega)]
    simp only [Except.map]
    exact ⟨_, _, rfl, dictGet_dictSet_self _ _ _, rfl⟩

/-- Witness for `C9_difficulty_validated_not_clamped` at difficulty 3. -/
theorem C9_difficulty_validated_not_clamped_witness :
    ("a" ≠ "" ∧ "b" ≠ "" ∧ (1:ℤ) ≤ 3 ∧ (3:ℤ) ≤ 5) ∧
    ∃ it, newWordItem 0 0 "a" "b" "" 3 [] = .ok it ∧ it.difficulty = 3 :=
  ⟨⟨by decide, by decide, by decide, by decide⟩,
    C9_difficulty_validated_not_clamped.1 0 0 "a" "b" "" 3 []
      (by decide) (by decide) (by decide) (by decide)⟩

/-- C9 counterexample: the claim says an out-of-range difficulty is clamped
into 1..5 and construction succeeds; the code raises `ValueError` at
difficulty 6. -/
theorem C9_clamping_counterexample :
    newWordItem 0 0 "a" "b" "" 6 [] =
      .error "difficulty must be between 1 and 5" := by
  simp only [newWordItem, wordItemPostInit]
  rw [if_neg (by decide), if_pos (by decide)]

/-- C10: `add_custom_word` on an existing key returns `False` and leaves the
store byte-for-byte unchanged; on a new word with non-empty meaning it
returns `True` and the created item is retrievable both under its word key
and (via `get_word_by_id`) under its generated id, with the two indexes
agreeing on the item. -/
theorem C10_add_custom_word :
    (∀ (st : DMState) (now : ℤ) (w m : String),
      (dictGet st.words w).isSome → add_custom_word st now w m = .ok (false, st)) ∧
    (∀ (st : DMState) (now : ℤ) (w m : String),
      dictGet st.words w = none → w ≠ "" → m ≠ "" →
      ∃ it st', add_custom_word st now w m = .ok (true, st') ∧
        dictGet st'.words w = some it ∧
        get_word_by_id st' it.word_id = some it ∧
        it.word = w ∧ it.meaning = m) := by
  constructor
  · intro st now w m h
    simp only [add_custom_word, add_custom_word_k]
    rw [if_pos h]
  · intro st now w m hfresh hw hm
    simp only [add_custom_word, add_custom_word_k]
    rw [if_neg (by simp [hfresh]),
      newWordItem_ok now st.next_id w m "" 1 [] (by tauto) (by omega)]
    simp only [Except.map]
    exact ⟨_, _, rfl, dictGet_dictSet_self _ _ _,
      by simpa [get_word_by_id] using dictGet_dictSet_self st.word_id_index _ _,
      rfl, rfl⟩

/-- Witness for `C10_add_custom_word` on an empty store. -/
theorem C10_add_custom_word_witness :
    (dictGet (({} : DMState)).words "a" = none ∧ "a" ≠ "" ∧ "b" ≠ "") ∧
    ∃ it st', add_custom_word {} 0 "a" "b" = .ok (true, st') ∧
      dictGet st'.words "a" = some it ∧
      get_word_by_id st' it.word_id = some it ∧
      it.word = "a" ∧ it.meaning = "b" :=
  ⟨⟨by decide, by decide, by decide⟩,
    C10_add_custom_word.2 {} 0 "a" "b" (by decide) (by decide) (by decide)⟩

/-! ## C6 infrastructure: list and comparison lemmas -/

theorem getD_set_self (l : List HeapEntry) (i : ℕ) (v : HeapEntry)
    (h : i < l.length) : (l.set i v).getD i dEntry = v := by
  rw [List.getD_eq_getElem _ _ (by simpa using h), List.getElem_set_self]

theorem getD_set_ne (l : List HeapEntry) (i j : ℕ) (v : HeapEntry)
    (hij : i ≠ j) (h : j < l.length) :
    (l.set i v).getD j dEntry = l.getD j dEntry := by
  rw [List.getD_eq_getElem _ _ (by simpa using h),
    List.getD_eq_getElem _ _ h, List.getElem_set_ne hij]

/-- Replacing a slot, as a multiset identity (addition form). -/
theorem multiset_set (l : List HeapEntry) (i : ℕ) (v : HeapEntry) :
    ∀ _h : i < l.length,
    (↑(l.set i v) + {l.getD i dEntry} : Multiset HeapEntry) = ↑l + {v} := by
  induction l generalizing i with
  | nil => intro h; cases h
  | cons a t ih =>
    intro h
    cases i with
    | zero =>
      simp only [List.set, List.getD, List.getElem?_cons_zero]
      change (v ::ₘ (↑t : Multiset HeapEntry)) + {a} = (a ::ₘ ↑t) + {v}
      rw [Multiset.cons_add, Multiset.cons_add, add_comm (↑t : Multiset HeapEntry) {a},
        add_comm (↑t : Multiset HeapEntry) {v}, Multiset.singleton_add,
        Multiset.singleton_add, Multiset.cons_swap]
    | succ i =>
      simp only [List.set, List.getD, List.getElem?_cons_succ]
      have := ih i (by simpa using Nat.lt_of_succ_lt_succ h)
      change (a ::ₘ ↑(t.set i v)) + {t.getD i dEntry} = (a ::ₘ ↑t) + {v}
      rw [Multiset.cons_add, Multiset.cons_add, this]

/-- The comparability relation carried by `DistinctTs`. -/
theorem pyLt_defined (a b : HeapEntry) (h : a.1 ≠ b.1 ∨ a = b) :
    pyLt a b = some (decide (a.1 < b.1)) := by
  rcases h with h | rfl
  · simp [pyLt, h]
  · simp [pyLt]

theorem pyLt_total (a b : HeapEntry) (h : a.1 ≠ b.1 ∨ a = b)
    (hnlt : ¬a.1 < b.1) : b.1 ≤ a.1 := by
  rcases h with h | rfl <;> omega

theorem distinctTs_rel_of_mem (l : List HeapEntry) (hd : DistinctTs l)
    (v e : HeapEntry) (hv : v ∈ l) (he : e ∈ l) : v.1 ≠ e.1 ∨ v = e := by
  by_cases hve : v = e
  · exact Or.inr hve
  · obtain ⟨i, hi, rfl⟩ := List.mem_iff_getElem.mp hv
    obtain ⟨j, hj, rfl⟩ := List.mem_iff_getElem.mp he
    have hij : i ≠ j := fun h => hve (by subst h; rfl)
    rcases Nat.lt_or_ge i j with h | h
    · exact (List.pairwise_iff_getElem.mp hd) i j hi hj h
    · have := (List.pairwise_iff_getElem.mp hd) j i hj hi (by omega)
      rcases this with h' | h'
      · exact Or.inl (Ne.symm h')
      · exact Or.inr h'.symm

theorem distinctTs_set (l : List HeapEntry) (pos : ℕ) (v : HeapEntry)
    (hd : DistinctTs l) (hv : ∀ e ∈ l, v.1 ≠ e.1 ∨ v = e) :
    DistinctTs (l.set pos v) := by
  rw [DistinctTs, List.pairwise_iff_getElem]
  intro i j hi hj hlt
  have hi' : i < l.length := by simpa using hi
  have hj' : j < l.length := by simpa using hj
  by_cases hip : pos = i
  · subst hip
    rw [List.getElem_set_self, List.getElem_set_ne (by omega) hj]
    exact hv _ (List.getElem_mem hj')
  · by_cases hjp : pos = j
    · subst hjp
      rw [List.getElem_set_self, List.getElem_set_ne hip hi]
      have := hv _ (List.getElem_mem hi')
      rcases this with h | h
      · exact Or.inl (Ne.symm h)
      · exact Or.inr h.symm
    · rw [List.getElem_set_ne hip hi, List.getElem_set_ne hjp hj]
      exact (List.pairwise_iff_getElem.mp hd) i j hi' hj' hlt

theorem tsCompat_set (l : List HeapEntry) (pos : ℕ) (v x : HeapEntry)
    (hx : TsCompat x l) (hv : x.1 ≠ v.1 ∨ x = v) :
    TsCompat x (l.set pos v) := by
  intro e he
  rcases List.mem_or_eq_of_mem_set he with h | rfl
  · exact hx e h
  · exact hv

theorem tsCompat_of_distinct (l : List HeapEntry) (hd : DistinctTs l)
    (x : HeapEntry) (hx : x ∈ l) : TsCompat x l :=
  fun e he => distinctTs_rel_of_mem l hd x e hx he

/-- In a heap the root timestamp is minimal. -/
theorem isHeap_root_min (l : List HeapEntry) (hheap : IsHeap l) :
    ∀ i, i < l.length → (l.getD 0 dEntry).1 ≤ (l.getD i dEntry).1 := by
  intro i
  induction i using Nat.strong_induction_on with
  | _ i ih =>
    intro hi
    rcases Nat.eq_zero_or_pos i with rfl | hpos
    · exact le_refl _
    · have hp : (i - 1) / 2 < i := by omega
      exact le_trans (ih _ hp (by omega)) (hheap i hi hpos)

/-- Correctness of CPython `_siftdown` called with `startpos = 0`: from a
shape that is a heap except at the target slot (with `x` fitting below it and
the parent of the slot fitting below its children), it succeeds and produces a
heap holding the same entries with `x` replacing the old target-slot
content. -/
theorem siftdown_spec (x : HeapEntry) : ∀ (pos : ℕ) (l : List HeapEntry),
    pos < l.length → HeapExcept l pos → BelowBound l pos x →
    ParentBound l pos → TsCompat x l →
    ∃ r, siftdown l 0 pos x = some r ∧ r.length = l.length ∧ IsHeap r ∧
      (↑r + {l.getD pos dEntry} : Multiset HeapEntry) = ↑l + {x} := by
  intro pos
  induction pos using Nat.strong_induction_on with
  | _ pos ih =>
    intro l hlen hHE hBB hPB hTC
    rcases Nat.eq_zero_or_pos pos with rfl | hpos
    · refine ⟨l.set 0 x, by rw [siftdown]; rfl, by simp, ?_,
        multiset_set l 0 x hlen⟩
      intro i hi h0
      have hi' : i < l.length := by simpa using hi
      by_cases hp : (i - 1) / 2 = 0
      · rw [hp, getD_set_self l 0 x hlen, getD_set_ne l 0 i x (by omega) hi']
        exact hBB i hi' h0 hp
      · rw [getD_set_ne l 0 _ x (fun h => hp h.symm) (by omega),
          getD_set_ne l 0 i x (by omega) hi']
        exact hHE i hi' h0 (by omega)
    · have hpplt : (pos - 1) / 2 < l.length := by omega
      have hparent_mem : l.getD ((pos - 1) / 2) dEntry ∈ l := by
        rw [List.getD_eq_getElem _ _ hpplt]
        exact List.getElem_mem hpplt
      have hcmp := pyLt_defined x (l.getD ((pos - 1) / 2) dEntry)
        (hTC _ hparent_mem)
      by_cases hlt : x.1 < (l.getD ((pos - 1) / 2) dEntry).1
      · have hcmp' : pyLt x (l.getD ((pos - 1) / 2) dEntry) = some true :=
          hcmp.trans (congrArg some (decide_eq_true hlt))
        have hstep : siftdown l 0 pos x =
            siftdown (l.set pos (l.getD ((pos - 1) / 2) dEntry)) 0
              ((pos - 1) / 2) x := by
          rw [siftdown]
          simp only [dif_pos hpos, hcmp']
        have hne : (pos - 1) / 2 ≠ pos := by omega
        obtain ⟨r, hr, hrlen, hrheap, hrm⟩ :=
          ih ((pos - 1) / 2) (by omega)
            (l.set pos (l.getD ((pos - 1) / 2) dEntry))
            (by simpa using hpplt)
            (by
              intro i hi h0 hine
              have hi' : i < l.length := by simpa using hi
              by_cases hipos : i = pos
              · subst hipos
                rw [getD_set_ne l i _ _ (fun h => hne h.symm) hpplt,
                  getD_set_self l i _ hlen]
              · by_cases hpar : (i - 1) / 2 = pos
                · rw [hpar, getD_set_self l pos _ hlen,
                    getD_set_ne l pos i _ (fun h => hipos h.symm) hi']
                  exact hPB hpos i hi' h0 hpar
                · rw [getD_set_ne l pos _ _ (fun h => hpar h.symm) (by omega),
                    getD_set_ne l pos i _ (fun h => hipos h.symm) hi']
                  exact hHE i hi' h0 hipos)
            (by
              intro c hc h0 hcp
              have hc' : c < l.length := by simpa using hc
              by_cases hcpos : c = pos
              · subst hcpos
                rw [getD_set_self l c _ hlen]
                exact hlt.le
              · rw [getD_set_ne l pos c _ (fun h => hcpos h.symm) hc']
                refine le_trans hlt.le ?_
                have := hHE c hc' h0 hcpos
                rwa [hcp] at this)
            (by
              intro h0pp c hc h0 hcp
              have hc' : c < l.length := by simpa using hc
              have hppp : ((pos - 1) / 2 - 1) / 2 ≠ pos := by omega
              rw [getD_set_ne l pos _ _ (fun h => hppp h.symm) (by omega)]
              have hbase : (l.getD (((pos - 1) / 2 - 1) / 2) dEntry).1 ≤
                  (l.getD ((pos - 1) / 2) dEntry).1 :=
                hHE ((pos - 1) / 2) hpplt h0pp hne
              by_cases hcpos : c = pos
              · subst hcpos
                rw [getD_set_self l c _ hlen]
                exact hbase
              · rw [getD_set_ne l pos c _ (fun h => hcpos h.symm) hc']
                refine le_trans hbase ?_
                have := hHE c hc' h0 hcpos
                rwa [hcp] at this)
            (tsCompat_set l pos _ x hTC (hTC _ hparent_mem))
        refine ⟨r, by rw [hstep]; exact hr, by simpa using hrlen, hrheap, ?_⟩
        have e2 := multiset_set l pos (l.getD ((pos - 1) / 2) dEntry) hlen
        rw [getD_set_ne l pos _ _ (fun h => hne h.symm) hpplt] at hrm
        have : (↑r + {l.getD pos dEntry} : Multiset HeapEntry) +
              {l.getD ((pos - 1) / 2) dEntry} =
            (↑l + {x}) + {l.getD ((pos - 1) / 2) dEntry} := by
          calc (↑r + {l.getD pos dEntry} : Multiset HeapEntry) +
                {l.getD ((pos - 1) / 2) dEntry}
              = (↑r + {l.getD ((pos - 1) / 2) dEntry}) + {l.getD pos dEntry} := by
                rw [add_right_comm]
            _ = (↑(l.set pos (l.getD ((pos - 1) / 2) dEntry)) + {x}) +
                  {l.getD pos dEntry} := by rw [hrm]
            _ = (↑(l.set pos (l.getD ((pos - 1) / 2) dEntry)) +
                  {l.getD pos dEntry}) + {x} := by rw [add_right_comm]
            _ = (↑l + {l.getD ((pos - 1) / 2) dEntry}) + {x} := by rw [e2]
            _ = (↑l + {x}) + {l.getD ((pos - 1) / 2) dEntry} := by
                rw [add_right_comm]
        exact add_right_cancel this
      · have hcmp' : pyLt x (l.getD ((pos - 1) / 2) dEntry) = some false :=
          hcmp.trans (congrArg some (decide_eq_false hlt))
        refine ⟨l.set pos x, ?_, by simp, ?_, multiset_set l pos x hlen⟩
        · rw [siftdown]
          simp only [dif_pos hpos, hcmp']
        · intro i hi h0
          have hi' : i < l.length := by simpa using hi
          by_cases hipos : i = pos
          · subst hipos
            have hne : (i - 1) / 2 ≠ i := by omega
            rw [getD_set_ne l i _ x (fun h => hne h.symm) (by omega),
              getD_set_self l i x hlen]
            exact pyLt_total x _ (hTC _ hparent_mem) hlt
          · by_cases hpar : (i - 1) / 2 = pos
            · rw [hpar, getD_set_self l pos x hlen,
                getD_set_ne l pos i x (fun h => hipos h.symm) hi']
              exact hBB i hi' h0 hpar
            · rw [getD_set_ne l pos _ x (fun h => hpar h.symm) (by omega),
                getD_set_ne l pos i x (fun h => hipos h.symm) hi']
              exact hHE i hi' h0 hipos

theorem multiset_exchange {a b x : HeapEntry} {R L1 L2 : Multiset HeapEntry}
    (h1 : R + {b} = L1 + {x}) (h2 : L1 + {a} = L2 + {b}) :
    R + {a} = L2 + {x} := by
  have h : (R + {a}) + {b} = (L2 + {x}) + {b} := by
    calc (R + {a}) + {b} = (R + {b}) + {a} := by rw [add_right_comm]
      _ = (L1 + {x}) + {a} := by rw [h1]
      _ = (L1 + {a}) + {x} := by rw [add_right_comm]
      _ = (L2 + {b}) + {x} := by rw [h2]
      _ = (L2 + {x}) + {b} := by rw [add_right_comm]
  exact add_right_cancel h

/-- The invariants of the CPython `_siftup` descent loop survive one step:
copying the minimal child `cp` up into the hole at `pos` moves the hole to
`cp`. -/
theorem siftup_step_hyps (x : HeapEntry) (l : List HeapEntry) (pos cp : ℕ)
    (hlen : pos < l.length) (hcp : cp = 2 * pos + 1 ∨ cp = 2 * pos + 2)
    (hcplen : cp < l.length)
    (hmin : ∀ s, s < l.length → (s = 2 * pos + 1 ∨ s = 2 * pos + 2) → s ≠ cp →
      (l.getD cp dEntry).1 ≤ (l.getD s dEntry).1)
    (hHH : HoleHeap l pos) (hPB : ParentBound l pos) (hd : DistinctTs l)
    (hTC : TsCompat x l) :
    HoleHeap (l.set pos (l.getD cp dEntry)) cp ∧
    ParentBound (l.set pos (l.getD cp dEntry)) cp ∧
    DistinctTs (l.set pos (l.getD cp dEntry)) ∧
    TsCompat x (l.set pos (l.getD cp dEntry)) := by
  have hppos : pos < cp := by omega
  have hcpmem : l.getD cp dEntry ∈ l := by
    rw [List.getD_eq_getElem _ _ hcplen]
    exact List.getElem_mem hcplen
  refine ⟨?_, ?_, ?_, ?_⟩
  · intro i hi h0 hicp hpari
    have hi' : i < l.length := by simpa using hi
    by_cases hipos : i = pos
    · subst hipos
      have hpp : (i - 1) / 2 ≠ i := by omega
      have hppcp : (i - 1) / 2 ≠ cp := by omega
      rw [getD_set_ne l i _ _ (fun h => hpp h.symm) (by omega),
        getD_set_self l i _ hlen]
      exact hPB h0 cp hcplen (by omega) (by omega)
    · by_cases hpar : (i - 1) / 2 = pos
      · rw [hpar, getD_set_self l pos _ hlen,
          getD_set_ne l pos i _ (fun h => hipos h.symm) hi']
        exact hmin i hi' (by omega) hicp
      · rw [getD_set_ne l pos _ _ (fun h => hpar h.symm) (by omega),
          getD_set_ne l pos i _ (fun h => hipos h.symm) hi']
        exact hHH i hi' h0 hipos hpar
  · intro h0cp c hc h0c hpc
    have hc' : c < l.length := by simpa using hc
    have hcpos : c ≠ pos := by omega
    rw [show (cp - 1) / 2 = pos by omega, getD_set_self l pos _ hlen,
      getD_set_ne l pos c _ (fun h => hcpos h.symm) hc']
    have := hHH c hc' h0c hcpos (by omega)
    rwa [hpc] at this
  · exact distinctTs_set l pos _ hd
      (fun e he => distinctTs_rel_of_mem l hd _ e hcpmem he)
  · exact tsCompat_set l pos _ x hTC (hTC _ hcpmem)

/-- Correctness of CPython `_siftup` called from `heappop` (`startpos = 0`):
from a heap with a hole at `pos` it succeeds and produces a heap holding the
same entries with `x` replacing the hole content. -/
theorem siftupLoop_spec (x : HeapEntry) : ∀ (k pos : ℕ) (l : List HeapEntry),
    l.length - pos ≤ k →
    pos < l.length → HoleHeap l pos → ParentBound l pos → DistinctTs l →
    TsCompat x l →
    ∃ r, siftupLoop l pos x 0 = some r ∧ r.length = l.length ∧ IsHeap r ∧
      (↑r + {l.getD pos dEntry} : Multiset HeapEntry) = ↑l + {x} := by
  intro k
  induction k with
  | zero => intro pos l hk hlen _ _ _ _; omega
  | succ k ih =>
    intro pos l hk hlen hHH hPB hd hTC
    by_cases hch : 2 * pos + 1 < l.length
    · -- at least one child
      have hrec : ∀ cp, cp = 2 * pos + 1 ∨ cp = 2 * pos + 2 → cp < l.length →
          (∀ s, s < l.length → (s = 2 * pos + 1 ∨ s = 2 * pos + 2) → s ≠ cp →
            (l.getD cp dEntry).1 ≤ (l.getD s dEntry).1) →
          ∃ r, siftupLoop (l.set pos (l.getD cp dEntry)) cp x 0 = some r ∧
            r.length = l.length ∧ IsHeap r ∧
            (↑r + {l.getD pos dEntry} : Multiset HeapEntry) = ↑l + {x} := by
        intro cp hcp hcplen hmin
        obtain ⟨hHH', hPB', hd', hTC'⟩ :=
          siftup_step_hyps x l pos cp hlen hcp hcplen hmin hHH hPB hd hTC
        obtain ⟨r, hr, hrlen, hrheap, hrm⟩ :=
          ih cp (l.set pos (l.getD cp dEntry))
            (by simp only [List.length_set]; omega)
            (by simpa using hcplen) hHH' hPB' hd' hTC'
        refine ⟨r, hr, by simpa using hrlen, hrheap, ?_⟩
        rw [getD_set_ne l pos cp _ (by omega) hcplen] at hrm
        exact multiset_exchange hrm
          (multiset_set l pos (l.getD cp dEntry) hlen)
      by_cases hch2 : 2 * pos + 2 < l.length
      · -- two children: compare them
        have hrel := distinctTs_rel_of_mem l hd
          (l.getD (2 * pos + 1) dEntry) (l.getD (2 * pos + 2) dEntry)
          (by rw [List.getD_eq_getElem _ _ hch]; exact List.getElem_mem hch)
          (by rw [List.getD_eq_getElem _ _ hch2]; exact List.getElem_mem hch2)
        have hcmp := pyLt_defined _ _ hrel
        by_cases hlt : (l.getD (2 * pos + 1) dEntry).1 <
            (l.getD (2 * pos + 2) dEntry).1
        · have hcmp' : pyLt (l.getD (2 * pos + 1) dEntry)
              (l.getD (2 * pos + 2) dEntry) = some true :=
            hcmp.trans (congrArg some (decide_eq_true hlt))
          obtain ⟨r, hr, hrlen, hrheap, hrm⟩ :=
            hrec (2 * pos + 1) (Or.inl rfl) hch
              (by
                intro s hs hs12 hsne
                have : s = 2 * pos + 2 := by omega
                subst this
                exact hlt.le)
          refine ⟨r, ?_, hrlen, hrheap, hrm⟩
          rw [siftupLoop]
          simp only [dif_pos hch, dif_pos hch2, hcmp']
          exact hr
        · have hcmp' : pyLt (l.getD (2 * pos + 1) dEntry)
              (l.getD (2 * pos + 2) dEntry) = some false :=
            hcmp.trans (congrArg some (decide_eq_false hlt))
          obtain ⟨r, hr, hrlen, hrheap, hrm⟩ :=
            hrec (2 * pos + 2) (Or.inr rfl) hch2
              (by
                intro s hs hs12 hsne
                have : s = 2 * pos + 1 := by omega
                subst this
                exact pyLt_total _ _ hrel hlt)
          refine ⟨r, ?_, hrlen, hrheap, hrm⟩
          rw [siftupLoop]
          simp only [dif_pos hch, dif_pos hch2, hcmp']
          exact hr
      · -- single child
        obtain ⟨r, hr, hrlen, hrheap, hrm⟩ :=
          hrec (2 * pos + 1) (Or.inl rfl) hch (by intro s hs hs12 hsne; omega)
        refine ⟨r, ?_, hrlen, hrheap, hrm⟩
        rw [siftupLoop]
        simp only [dif_pos hch, dif_neg hch2]
        exact hr
    · -- leaf: place x here and sift it toward the root
      obtain ⟨r, hr, hrlen, hrheap, hrm⟩ :=
        siftdown_spec x pos (l.set pos x) (by simpa using hlen)
          (by
            intro i hi h0 hipos
            have hi' : i < l.length := by simpa using hi
            have hpar : (i - 1) / 2 ≠ pos := by
              intro h
              omega
            rw [getD_set_ne l pos _ x (fun h => hpar h.symm) (by omega),
              getD_set_ne l pos i x (fun h => hipos h.symm) hi']
            exact hHH i hi' h0 hipos hpar)
          (by intro c hc h0 hcp; simp only [List.length_set] at hc; omega)
          (by intro h0 c hc h0c hcp; simp only [List.length_set] at hc; omega)
          (tsCompat_set l pos x x hTC (Or.inr rfl))
      refine ⟨r, ?_, by simpa using hrlen, hrheap, ?_⟩
      · rw [siftupLoop]
        simp only [dif_neg hch]
        exact hr
      · rw [getD_set_self l pos x hlen] at hrm
        have hr2 : (↑r : Multiset HeapEntry) = ↑(l.set pos x) :=
          add_right_cancel hrm
        rw [hr2]
        exact multiset_set l pos x hlen

/-- Transfer of pairwise timestamp-distinctness along a permutation. -/
theorem distinctTs_of_perm (l l' : List HeapEntry) (h : List.Perm l l')
    (hd : DistinctTs l) : DistinctTs l' :=
  hd.perm h (fun hxy => by
    rcases hxy with h' | h'
    · exact Or.inl (Ne.symm h')
    · exact Or.inr h'.symm)

/-- Correctness of `heapq.heappop` on a well-formed heap with pairwise
comparable entries: it returns the root (the minimal-timestamp entry) and a
well-formed heap holding exactly the remaining entries. -/
theorem heappop_spec (l : List HeapEntry) (hne : l ≠ []) (hheap : IsHeap l)
    (hd : DistinctTs l) :
    ∃ l', heappop l = some (l.getD 0 dEntry, l') ∧ IsHeap l' ∧
      (↑l' + {l.getD 0 dEntry} : Multiset HeapEntry) = ↑l ∧
      DistinctTs l' := by
  have hls := List.getLast?_eq_getLast l hne
  have hsplit : l.dropLast ++ [l.getLast hne] = l :=
    List.dropLast_append_getLast hne
  by_cases hre : l.dropLast.isEmpty
  · have hl1 : l = [l.getLast hne] := by
      conv_lhs => rw [← hsplit]
      rw [List.isEmpty_iff.mp hre]
      rfl
    have hg0 : l.getD 0 dEntry = l.getLast hne := by
      conv_lhs => rw [hl1]
      rfl
    refine ⟨[], ?_, by intro i hi h0; simp at hi, ?_, List.Pairwise.nil⟩
    · simp only [heappop, hls, hre, if_pos]
      rw [hg0]
    · rw [hg0]
      conv_rhs => rw [hl1]
      rfl
  · have hrlen : 0 < l.dropLast.length := by
      by_contra hc
      have hdl : l.dropLast = [] := List.length_eq_zero.mp (by omega)
      exact hre (by simp [hdl])
    have hrest_get : ∀ j, j < l.dropLast.length →
        l.dropLast.getD j dEntry = l.getD j dEntry := by
      intro j hj
      rw [List.getD_eq_getElem _ _ hj,
        List.getD_eq_getElem _ _ (by rw [List.length_dropLast] at hj; omega),
        List.getElem_dropLast]
    have hlen0 : 0 < (l.dropLast.set 0 (l.getLast hne)).length := by
      simpa using hrlen
    have hm0 : (↑(l.dropLast.set 0 (l.getLast hne)) +
        {l.dropLast.getD 0 dEntry} : Multiset HeapEntry) = ↑l := by
      rw [multiset_set l.dropLast 0 (l.getLast hne) hrlen]
      rw [show ({l.getLast hne} : Multiset HeapEntry) = ↑[l.getLast hne] from
        (Multiset.coe_singleton _).symm, Multiset.coe_add, hsplit]
    have hperm : List.Perm (l.dropLast.getD 0 dEntry ::
        l.dropLast.set 0 (l.getLast hne)) l := by
      rw [← Multiset.coe_eq_coe, ← Multiset.cons_coe, ← Multiset.singleton_add,
        add_comm]
      exact hm0
    have hd0 : DistinctTs (l.dropLast.set 0 (l.getLast hne)) :=
      (List.pairwise_cons.mp (distinctTs_of_perm l _ hperm.symm hd)).2
    have hlast_mem : l.getLast hne ∈ l := List.getLast_mem hne
    obtain ⟨r, hr, hrlen', hrheap, hrm⟩ :=
      siftupLoop_spec (l.getLast hne) (l.dropLast.set 0 (l.getLast hne)).length
        0 (l.dropLast.set 0 (l.getLast hne)) (by omega) hlen0
        (by
          intro i hi h0 hi0 hpar
          have hi' : i < l.dropLast.length := by simpa using hi
          rw [getD_set_ne _ 0 _ _ (by omega) (by omega),
            getD_set_ne _ 0 i _ (by omega) hi', hrest_get i hi',
            hrest_get ((i - 1) / 2) (by omega)]
          exact hheap i (by rw [List.length_dropLast] at hi'; omega) h0)
        (by intro h0; omega)
        hd0
        (by
          intro e he
          have he' : e ∈ l := (hperm.mem_iff).mp (List.mem_cons_of_mem _ he)
          exact distinctTs_rel_of_mem l hd _ e hlast_mem he')
    have hget0 : (l.dropLast.set 0 (l.getLast hne)).getD 0 dEntry =
        l.getLast hne := getD_set_self _ 0 _ hrlen
    rw [hget0] at hrm
    have hrl0 : (↑r : Multiset HeapEntry) =
        ↑(l.dropLast.set 0 (l.getLast hne)) := add_right_cancel hrm
    refine ⟨r, ?_, hrheap, ?_, ?_⟩
    · simp only [heappop, hls, hre, if_false, Bool.false_eq_true, siftup,
        hget0]
      rw [hr]
      simp only [Option.map]
      rw [hrest_get 0 hrlen]
    · rw [hrl0, ← hrest_get 0 hrlen]
      exact hm0
    · exact distinctTs_of_perm _ r (Multiset.coe_eq_coe.mp hrl0).symm hd0

/-- Every entry of a heap is at or above the root timestamp. -/
theorem isHeap_min_mem (l : List HeapEntry) (hheap : IsHeap l) :
    ∀ e ∈ l, (l.getD 0 dEntry).1 ≤ e.1 := by
  intro e he
  obtain ⟨i, hi, rfl⟩ := List.mem_iff_getElem.mp he
  have := isHeap_root_min l hheap i hi
  rwa [List.getD_eq_getElem _ _ hi] at this

/-- Correctness of the `get_due_items` pop loop on a well-formed heap with
pairwise-distinct-or-equal entries: it pops, in ascending due order, exactly
the due entries up to the limit, and leaves the rest as a well-formed heap. -/
theorem get_due_items_loop_spec (now : ℤ) (limit : ℕ) :
    ∀ (n : ℕ) (l : List HeapEntry), l.length ≤ n → IsHeap l → DistinctTs l →
    ∀ acc : List WordItem,
    ∃ (es rest : List HeapEntry), get_due_items_loop now limit l acc =
        some (acc ++ es.map Prod.snd, rest) ∧
      List.Sorted (· ≤ ·) (es.map Prod.fst) ∧
      (∀ e ∈ es, e.1 ≤ now) ∧
      acc.length + es.length ≤ max limit acc.length ∧
      (↑l : Multiset HeapEntry) = ↑es + ↑rest ∧
      (acc.length + es.length < limit → ∀ e ∈ rest, now < e.1) ∧
      IsHeap rest ∧ DistinctTs rest := by
  intro n
  induction n with
  | zero =>
    intro l hln hheap hd acc
    have hnil : l = [] := List.length_eq_zero.mp (by omega)
    subst hnil
    refine ⟨[], [], ?_, by simp, by simp, by simpa using le_max_right _ _,
      by simp, by simp, hheap, hd⟩
    rw [get_due_items_loop, dif_neg (by simp)]
    simp
  | succ n ih =>
    intro l hln hheap hd acc
    by_cases hg : l ≠ [] ∧ (l.getD 0 dEntry).1 ≤ now ∧ acc.length < limit
    · obtain ⟨hne, hroot, hacc⟩ := hg
      obtain ⟨l2, hpop, hheap2, hm2, hd2⟩ := heappop_spec l hne hheap hd
      have hcard := congrArg Multiset.card hm2
      simp only [Multiset.card_add, Multiset.coe_card,
        Multiset.card_singleton] at hcard
      obtain ⟨es, rest, hloop, hsort, hdue, hlen', hm', hnotdue, hheap', hd'⟩ :=
        ih l2 (by omega) hheap2 hd2 (acc ++ [(l.getD 0 dEntry).2])
      have hmem_l : ∀ e ∈ es, e ∈ l := by
        intro e he
        have h1 : e ∈ (↑l2 : Multiset HeapEntry) := by
          rw [hm']
          exact Multiset.mem_add.mpr (Or.inl (by simpa using he))
        have h2 : e ∈ (↑l : Multiset HeapEntry) := by
          rw [← hm2]
          exact Multiset.mem_add.mpr (Or.inl h1)
        simpa using h2
      refine ⟨l.getD 0 dEntry :: es, rest, ?_, ?_, ?_, ?_, ?_, ?_, hheap', hd'⟩
      · rw [get_due_items_loop, dif_pos ⟨hne, hroot, hacc⟩]
        simp only [hpop]
        rw [hloop]
        simp [List.append_assoc]
      · rw [List.map_cons, List.sorted_cons]
        refine ⟨?_, hsort⟩
        intro b hb
        obtain ⟨e, he, rfl⟩ := List.mem_map.mp hb
        exact isHeap_min_mem l hheap e (hmem_l e he)
      · intro e he
        rcases List.mem_cons.mp he with rfl | he'
        · exact hroot
        · exact hdue e he'
      · simp only [List.length_append, List.length_singleton] at hlen'
        simp only [List.length_cons]
        omega
      · rw [← hm2, hm', ← Multiset.cons_coe, ← Multiset.singleton_add]
        simp only [add_comm, add_left_comm, add_assoc]
      · intro h
        apply hnotdue
        simp only [List.length_append, List.length_singleton]
        simp only [List.length_cons] at h
        omega
    · refine ⟨[], l, ?_, by simp, by simp, by simpa using le_max_right _ _,
        by simp, ?_, hheap, hd⟩
      · rw [get_due_items_loop, dif_neg hg]
        simp
      · intro h e he
        by_cases hne : l = []
        · subst hne; simp at he
        · have hnow : ¬(l.getD 0 dEntry).1 ≤ now := by
            by_contra hc
            exact hg ⟨hne, hc, by simpa using h⟩
          exact lt_of_lt_of_le (by omega) (isHeap_min_mem l hheap e he)

/-- C6 (amended): for every heap state whose entries are pairwise comparable
(distinct due timestamps, or identical entries) and every limit,
`get_due_items` returns exactly the due entries (`timestamp ≤ now`), at most
`limit` of them, in ascending due order; it leaves every other entry (in
particular every not-yet-due one) in the heap, which remains a well-formed
heap, and returns the empty sequence when nothing is due.  There is no
insertion-order tie-break: two queued entries with equal due timestamps make
the tuple comparison fall through to comparing `WordItem`s, raising
`TypeError` (see the counterexample). -/
theorem C6_get_due_items_spec (heap : List HeapEntry) (now : ℤ) (limit : ℕ)
    (hheap : IsHeap heap) (hd : DistinctTs heap) :
    ∃ (es rest : List HeapEntry),
      get_due_items now limit heap = some (es.map Prod.snd, rest) ∧
      List.Sorted (· ≤ ·) (es.map Prod.fst) ∧
      (∀ e ∈ es, e.1 ≤ now) ∧
      es.length ≤ limit ∧
      (↑heap : Multiset HeapEntry) = ↑es + ↑rest ∧
      (es.length < limit → ∀ e ∈ rest, now < e.1) ∧
      ((∀ e ∈ heap, now < e.1) → es = []) ∧
      IsHeap rest := by
  obtain ⟨es, rest, hloop, hsort, hdue, hlen, hm, hnd, hheap', -⟩ :=
    get_due_items_loop_spec now limit heap.length heap (le_refl _) hheap hd []
  have hlen' : es.length ≤ limit := by
    simp only [List.length_nil, Nat.zero_add] at hlen
    omega
  refine ⟨es, rest, ?_, hsort, hdue, hlen', hm, ?_, ?_, hheap'⟩
  · rw [get_due_items]
    simpa using hloop
  · intro h
    apply hnd
    simpa using h
  · intro hall
    by_contra hne
    obtain ⟨e, he⟩ := List.exists_mem_of_ne_nil es hne
    have h1 : e ∈ (↑heap : Multiset HeapEntry) := by
      rw [hm]
      exact Multiset.mem_add.mpr (Or.inl (by simpa using he))
    exact absurd (hdue e he) (not_le.mpr (hall e (by simpa using h1)))

/-- Witness for `C6_get_due_items_spec`: a two-entry heap with due
timestamps 1 and 3 queried at `now = 2` with limit 50. -/
theorem C6_get_due_items_spec_witness :
    (IsHeap [((1 : ℤ), wordA), (3, wordB)] ∧
      DistinctTs [((1 : ℤ), wordA), (3, wordB)]) ∧
    ∃ (es rest : List HeapEntry),
      get_due_items 2 50 [((1 : ℤ), wordA), (3, wordB)] =
        some (es.map Prod.snd, rest) ∧
      List.Sorted (· ≤ ·) (es.map Prod.fst) ∧
      (∀ e ∈ es, e.1 ≤ 2) ∧
      es.length ≤ 50 ∧
      (↑[((1 : ℤ), wordA), (3, wordB)] : Multiset HeapEntry) = ↑es + ↑rest ∧
      (es.length < 50 → ∀ e ∈ rest, 2 < e.1) ∧
      ((∀ e ∈ [((1 : ℤ), wordA), (3, wordB)], 2 < e.1) → es = []) ∧
      IsHeap rest :=
  ⟨⟨by decide, by decide⟩,
    C6_get_due_items_spec [((1 : ℤ), wordA), (3, wordB)] 2 50
      (by decide) (by decide)⟩

/-- C6 counterexample: two queued entries can carry equal due timestamps
(the heap `[(3,C),(5,A),(5,B)]` is built by three successful `heappush`
calls), and then `get_due_items` raises `TypeError` (`none`) instead of
returning the one due item — there is no insertion-order tie-break. -/
theorem C6_equal_timestamps_counterexample :
    heappush [] (3, wordC) = some [(3, wordC)] ∧
    heappush [(3, wordC)] (5, wordA) = some [(3, wordC), (5, wordA)] ∧
    heappush [(3, wordC), (5, wordA)] (5, wordB) =
      some [(3, wordC), (5, wordA), (5, wordB)] ∧
    get_due_items 4 50 [(3, wordC), (5, wordA), (5, wordB)] = none := by
  refine ⟨?_, ?_, ?_, ?_⟩
  · rw [heappush, siftdown]
    norm_num
  · rw [heappush]
    norm_num [siftdown, pyLt, dEntry]
  · rw [heappush]
    norm_num [siftdown, pyLt, dEntry]
  · have h1 : siftdown [(5, wordA), (5, wordB)] 0 1 (5, wordB) = none := by
      rw [siftdown]
      norm_num [pyLt, dEntry, wordA, wordB]
      rw [if_neg (show ¬("B" : String) = "A" from by decide)]
    have h2 : siftupLoop [(5, wordA), (5, wordA)] 1 (5, wordB) 0 = none := by
      rw [siftupLoop]
      norm_num [h1]
    have h3 : siftupLoop [(5, wordB), (5, wordA)] 0 (5, wordB) 0 = none := by
      rw [siftupLoop]
      norm_num [h2, dEntry]
    have h4 : heappop [(3, wordC), (5, wordA), (5, wordB)] = none := by
      have hl : [(3, wordC), (5, wordA), (5, wordB)].getLast? =
        some (5, wordB) := rfl
      rw [heappop]
      simp only [hl]
      norm_num [siftup, h3, dEntry]
    rw [get_due_items, get_due_items_loop,
      dif_pos ⟨by simp, by norm_num [dEntry], by norm_num⟩, h4]

end WordMemorizer
